import Mathlib

/-!
Verification of the dstack-py control-graph core and execution layer.

The definitions below are a shallow embedding of:
  * `src/dstack/app/controls.py` (`Control._update`, `Control.apply`,
    `TextField`, `Apply._view`, `Controller.__init__`, `Controller.list`,
    `Controller.apply`),
  * `src/dstack/application/handlers.py` (`AppExecutor.poll`,
    `AppDecoder.decode`'s generated execute script),
  * `src/dstack/app/handlers.py` (`AppEncoder._check_optional`, `_split_type`).

Python values flowing through the controls are modelled by `Value`
(strings, integers and `None`), together with Python truthiness.
Control graphs are modelled as lists of nodes whose parent edges point to
strictly smaller indices (parents is created before children), which makes
the recursive `_update` walk well-founded exactly as in the acyclic use the
code supports.
-/

namespace Dstack

/-- A Python value as used by the control layer: `None`, an `int`, or a `str`.
Mirrors the dynamic values held in `TextField.data` / `_validated_value`. -/
inductive Value where
  | none
  | int (n : Int)
  | str (s : String)
  deriving DecidableEq, Repr

/-- Python truthiness on `Value` (`bool(x)`): `None` and `0` and `""` are falsy. -/
def Value.truthy : Value → Bool
  | Value.none => false
  | Value.int n => decide (n ≠ 0)
  | Value.str s => decide (s ≠ "")

/-- Python `a or b`. -/
def pyOr (a b : Value) : Value := if a.truthy then a else b

/-- Python truthiness of the tri-state `optional` field (`not control.optional`
is `True` for both `None` and `False`). -/
def optTruthy : Option Bool → Bool
  | Option.some b => b
  | Option.none => false

/-- The mutable per-control state: `data`, `_validated_value`,
`_pending_view` (carrying the view's data payload) and `_dirty`,
as in `Control.__init__` / `TextField.__init__`. -/
structure NodeState where
  data : Value
  validated : Value
  pending : Option Value
  dirty : Bool
  deriving DecidableEq, Repr

/-- The immutable description of one control: whether it is the `Apply`
control, its parents (`_parents`, as indices), its update function
(`_update_func`, modelled as a function of the control's own data and its
parents' data that either returns the new data or raises), its bound
validator (`TextField._validator`) and its tri-state `optional` field. -/
structure Node where
  isApply : Bool
  parents : List Nat
  updateFunc : Option (Value → List Value → Except String Value)
  validator : Option (Value → Except String Value)
  optional : Option Bool

def defaultNode : Node :=
  { isApply := false, parents := [], updateFunc := Option.none,
    validator := Option.none, optional := Option.none }

instance : Inhabited Node := ⟨defaultNode⟩

/-- A control graph: the controls of one `Controller`, in insertion order.
Parent edges point to earlier controls, which is the acyclic situation the
recursive `Control._update` terminates on. -/
structure Graph where
  nodes : List Node
  wf : ∀ i j, j ∈ (nodes.getD i defaultNode).parents → j < i

def Graph.node (g : Graph) (i : Nat) : Node := g.nodes.getD i defaultNode

def Graph.size (g : Graph) : Nat := g.nodes.length

/-- The mutable state of all controls of a graph. -/
def St : Type := Nat → NodeState

/-- Write one control's state. -/
def setSt (st : St) (i : Nat) (ns : NodeState) : St :=
  fun j => if j = i then ns else st j

@[simp] theorem setSt_same (st : St) (i : Nat) (ns : NodeState) :
    setSt st i ns i = ns := by
  simp [setSt]

theorem setSt_other (st : St) (i j : Nat) (ns : NodeState) (h : j ≠ i) :
    setSt st i ns j = st j := by
  simp [setSt, h]

/-- The error raised by `Control._update` when the update function throws:
`UpdateError(e, self._id)`. -/
structure UpdErr where
  id : Nat
  cause : String
  deriving DecidableEq, Repr

/-- The first step of `Control._update`: if a pending view is buffered,
`_apply` it (for a `TextField` this copies the view's data into `self.data`;
`Apply._apply` copies nothing), clear the buffer and set the dirty flag. -/
def consume (g : Graph) (i : Nat) (st : St) : St :=
  match (st i).pending with
  | Option.some v =>
      setSt st i { data := if (g.node i).isApply then (st i).data else v,
                   validated := (st i).validated, pending := Option.none, dirty := true }
  | Option.none => st

mutual

/-- `Control._update` (controls.py:105-120): consume the pending view
(`_apply` it, clear it, mark dirty), then, if the control has an update
function, update every parent first and re-run the update function when
dirty, clearing the dirty flag on success and raising `UpdateError` on
failure.  Returns the new state, the error if one was raised, and the trace
of controls whose update function actually ran, in run order.  State changes
made before an error persist, as they do on the mutable Python objects. -/
def updNode (g : Graph) (i : Nat) (st : St) : St × Option UpdErr × List Nat :=
  let st1 : St := consume g i st
  match (g.node i).updateFunc with
  | Option.none => (st1, Option.none, [])
  | Option.some f =>
      match updList g i (g.node i).parents (fun j hj => g.wf i j hj) st1 with
      | (st2, Option.some e, tr) => (st2, Option.some e, tr)
      | (st2, Option.none, tr) =>
          if (st2 i).dirty then
            match f (st2 i).data ((g.node i).parents.map fun j => (st2 j).data) with
            | Except.ok v =>
                (setSt st2 i { data := v, validated := (st2 i).validated,
                               pending := (st2 i).pending, dirty := false },
                 Option.none, tr ++ [i])
            | Except.error c => (st2, Option.some ⟨i, c⟩, tr)
          else (st2, Option.none, tr)
termination_by (2 * i + 1, 0)
decreasing_by
  exact Prod.Lex.left _ _ (by omega)

/-- The `for p in self._parents: p._update()` loop of `Control._update`,
threading the state and stopping at the first error. -/
def updList (g : Graph) (i : Nat) (ps : List Nat) (h : ∀ j ∈ ps, j < i) (st : St) :
    St × Option UpdErr × List Nat :=
  match ps with
  | [] => (st, Option.none, [])
  | p :: rest =>
      match updNode g p st with
      | (st', Option.some e, tr) => (st', Option.some e, tr)
      | (st', Option.none, tr) =>
          match updList g i rest (fun j hj => h j (List.mem_cons_of_mem p hj)) st' with
          | (st'', e, tr') => (st'', e, tr ++ tr')
termination_by (2 * i, ps.length + 1)
decreasing_by
  · exact Prod.Lex.left _ _ (by have := h p (List.mem_cons_self p rest); omega)
  · exact Prod.Lex.right _ (by simp only [List.length_cons]; omega)

end

/-! ### Basic facts about `consume` and quiescent controls -/

/-- A control whose own buffers are at rest: no pending view, and, when it
has an update function, its dirty flag is cleared. -/
def QuietAt (nd : Node) (ns : NodeState) : Prop :=
  ns.pending = Option.none ∧ (nd.updateFunc.isSome → ns.dirty = false)

/-- `Quiet g st j`: control `j` is at rest in state `st`. -/
def Quiet (g : Graph) (st : St) (j : Nat) : Prop := QuietAt (g.node j) (st j)

theorem consume_of_none (g : Graph) (i : Nat) (st : St)
    (h : (st i).pending = Option.none) : consume g i st = st := by
  simp [consume, h]

theorem consume_other (g : Graph) (i j : Nat) (st : St) (h : j ≠ i) :
    consume g i st j = st j := by
  unfold consume
  cases (st i).pending <;> simp [setSt, h]

theorem consume_pending_self (g : Graph) (i : Nat) (st : St) :
    (consume g i st i).pending = Option.none := by
  unfold consume
  cases hp : (st i).pending <;> simp [setSt, hp]

theorem consume_validated (g : Graph) (i j : Nat) (st : St) :
    (consume g i st j).validated = (st j).validated := by
  unfold consume
  cases hp : (st i).pending <;> by_cases hj : j = i <;> simp [setSt, hp, hj]

theorem consume_pendMono (g : Graph) (i j : Nat) (st : St) :
    (consume g i st j).pending = (st j).pending ∨
      (consume g i st j).pending = Option.none := by
  by_cases hj : j = i
  · subst hj; exact Or.inr (consume_pending_self g j st)
  · exact Or.inl (by rw [consume_other g i j st hj])

theorem consume_of_quiet (g : Graph) (i j : Nat) (st : St)
    (h : Quiet g st j) : consume g i st j = st j := by
  by_cases hj : j = i
  · subst hj; rw [consume_of_none g j st h.1]
  · exact consume_other g i j st hj

/-- The invariants that one `_update` walk establishes, shared between
`updNode` and `updList`.  `ok` bounds the indices whose update functions may
run (`· ≤ i` for `updNode g i`, below some member of `ps` for `updList`). -/
structure UpdPost (g : Graph) (ok : Nat → Prop) (st st' : St)
    (e : Option UpdErr) (tr : List Nat) : Prop where
  frame : ∀ j, (∀ k, ok k → k < j) → st' j = st j
  trOk : ∀ k ∈ tr, ok k
  pendMono : ∀ j, (st' j).pending = (st j).pending ∨ (st' j).pending = Option.none
  quietFrame : ∀ j, Quiet g st j → st' j = st j
  trNotQuiet : ∀ k ∈ tr, ¬ Quiet g st k
  trQuietPost : ∀ k ∈ tr, Quiet g st' k
  trNodup : tr.Nodup
  validSame : ∀ j, (st' j).validated = (st j).validated
  errSpec : ∀ k c, e = Option.some ⟨k, c⟩ → ∃ f,
    (g.node k).updateFunc = Option.some f ∧
    f ((st' k).data) ((g.node k).parents.map fun j => (st' j).data) = Except.error c ∧
    (st' k).dirty = true ∧ (st' k).pending = Option.none

theorem quiet_congr (g : Graph) (st st2 : St) (j : Nat) (h : st2 j = st j) :
    Quiet g st j ↔ Quiet g st2 j := by
  unfold Quiet; rw [h]

theorem updPost_weaken {g : Graph} {ok ok' : Nat → Prop} {st st' : St}
    {e : Option UpdErr} {tr : List Nat}
    (h : UpdPost g ok st st' e tr) (imp : ∀ k, ok k → ok' k) :
    UpdPost g ok' st st' e tr where
  frame j hj := h.frame j (fun k hk => hj k (imp k hk))
  trOk k hk := imp k (h.trOk k hk)
  pendMono := h.pendMono
  quietFrame := h.quietFrame
  trNotQuiet := h.trNotQuiet
  trQuietPost := h.trQuietPost
  trNodup := h.trNodup
  validSame := h.validSame
  errSpec := h.errSpec

theorem updPost_comp {g : Graph} {ok1 ok2 : Nat → Prop} {st stA st' : St}
    {e : Option UpdErr} {tr1 tr2 : List Nat}
    (h1 : UpdPost g ok1 st stA Option.none tr1)
    (h2 : UpdPost g ok2 stA st' e tr2) :
    UpdPost g (fun k => ok1 k ∨ ok2 k) st st' e (tr1 ++ tr2) where
  frame j hj := by
    rw [h2.frame j (fun k hk => hj k (Or.inr hk)),
        h1.frame j (fun k hk => hj k (Or.inl hk))]
  trOk k hk := by
    rcases List.mem_append.1 hk with hk | hk
    · exact Or.inl (h1.trOk k hk)
    · exact Or.inr (h2.trOk k hk)
  pendMono j := by
    rcases h2.pendMono j with h | h
    · rw [h]; exact h1.pendMono j
    · exact Or.inr h
  quietFrame j hq := by
    have e1 := h1.quietFrame j hq
    have hq2 : Quiet g stA j := (quiet_congr g st stA j e1).1 hq
    rw [h2.quietFrame j hq2, e1]
  trNotQuiet k hk := by
    rcases List.mem_append.1 hk with hk | hk
    · exact h1.trNotQuiet k hk
    · intro hq
      exact h2.trNotQuiet k hk ((quiet_congr g st stA k (h1.quietFrame k hq)).1 hq)
  trQuietPost k hk := by
    rcases List.mem_append.1 hk with hk | hk
    · have hq := h1.trQuietPost k hk
      exact (quiet_congr g stA st' k (h2.quietFrame k hq)).1 hq
    · exact h2.trQuietPost k hk
  trNodup := by
    refine (List.nodup_append).2 ⟨h1.trNodup, h2.trNodup, ?_⟩
    intro k hk1 hk2
    exact h2.trNotQuiet k hk2 (h1.trQuietPost k hk1)
  validSame j := by rw [h2.validSame j, h1.validSame j]
  errSpec := h2.errSpec

/-- The trivial walk: nothing happens. -/
theorem updPost_id (g : Graph) (ok : Nat → Prop) (st : St) :
    UpdPost g ok st st Option.none [] where
  frame _ _ := rfl
  trOk k hk := absurd hk (List.not_mem_nil k)
  pendMono j := Or.inl rfl
  quietFrame _ _ := rfl
  trNotQuiet k hk := absurd hk (List.not_mem_nil k)
  trQuietPost k hk := absurd hk (List.not_mem_nil k)
  trNodup := List.nodup_nil
  validSame _ := rfl
  errSpec k c h := by cases h

theorem consume_post (g : Graph) (i : Nat) (st : St) :
    UpdPost g (fun k => k = i) st (consume g i st) Option.none [] where
  frame j hj := consume_other g i j st (by have := hj i rfl; omega)
  trOk k hk := absurd hk (List.not_mem_nil k)
  pendMono j := consume_pendMono g i j st
  quietFrame j hq := consume_of_quiet g i j st hq
  trNotQuiet k hk := absurd hk (List.not_mem_nil k)
  trQuietPost k hk := absurd hk (List.not_mem_nil k)
  trNodup := List.nodup_nil
  validSame j := consume_validated g i j st
  errSpec k c h := by cases h

/-- The step that actually runs the update function of control `i` after its
parents were updated: data is replaced, the dirty flag cleared. -/
theorem run_post (g : Graph) (i : Nat) (st2 : St) (v : Value)
    (hFn : (g.node i).updateFunc.isSome)
    (hd : (st2 i).dirty = true) (hp : (st2 i).pending = Option.none) :
    UpdPost g (fun k => k = i) st2
      (setSt st2 i { data := v, validated := (st2 i).validated,
                     pending := (st2 i).pending, dirty := false })
      Option.none [i] where
  frame j hj := setSt_other _ _ _ _ (by have := hj i rfl; omega)
  trOk k hk := by simpa using hk
  pendMono j := by
    by_cases hj : j = i
    · subst hj; simp
    · rw [setSt_other _ _ _ _ hj]; exact Or.inl rfl
  quietFrame j hq := by
    by_cases hj : j = i
    · subst hj
      exact absurd (hq.2 hFn) (by rw [hd]; simp)
    · exact setSt_other _ _ _ _ hj
  trNotQuiet k hk := by
    simp only [List.mem_singleton] at hk
    subst hk
    intro hq
    exact absurd (hq.2 hFn) (by rw [hd]; simp)
  trQuietPost k hk := by
    simp only [List.mem_singleton] at hk
    subst hk
    constructor
    · simp [hp]
    · intro _; simp
  trNodup := List.nodup_singleton i
  validSame j := by
    by_cases hj : j = i
    · subst hj; simp
    · rw [setSt_other _ _ _ _ hj]
  errSpec k c h := by cases h

/-- The step in which the update function of control `i` raises. -/
theorem err_post (g : Graph) (i : Nat) (st2 : St) (c : String)
    (f : Value → List Value → Except String Value)
    (hFn : (g.node i).updateFunc = Option.some f)
    (hf : f ((st2 i).data) ((g.node i).parents.map fun j => (st2 j).data) =
      Except.error c)
    (hd : (st2 i).dirty = true) (hp : (st2 i).pending = Option.none) :
    UpdPost g (fun _ => False) st2 st2 (Option.some ⟨i, c⟩) [] where
  frame _ _ := rfl
  trOk k hk := absurd hk (List.not_mem_nil k)
  pendMono j := Or.inl rfl
  quietFrame _ _ := rfl
  trNotQuiet k hk := absurd hk (List.not_mem_nil k)
  trQuietPost k hk := absurd hk (List.not_mem_nil k)
  trNodup := List.nodup_nil
  validSame _ := rfl
  errSpec k c' h := by
    obtain ⟨rfl, rfl⟩ : k = i ∧ c' = c := by
      constructor <;> cases h <;> rfl
    exact ⟨f, hFn, hf, hd, hp⟩

theorem updList_post_aux (g : Graph) (i : Nat)
    (hnode : ∀ p, p < i → ∀ st st' e tr, updNode g p st = (st', e, tr) →
      UpdPost g (fun k => k ≤ p) st st' e tr) :
    ∀ ps (h : ∀ j ∈ ps, j < i) st st' e tr,
      updList g i ps h st = (st', e, tr) →
      UpdPost g (fun k => ∃ p ∈ ps, k ≤ p) st st' e tr := by
  intro ps
  induction ps with
  | nil =>
      intro h st st' e tr hEq
      simp only [updList] at hEq
      obtain ⟨rfl, rfl, rfl⟩ := Prod.mk.injEq .. ▸ hEq
      exact updPost_id g _ st
  | cons p rest ih =>
      intro h st st' e tr hEq
      simp only [updList] at hEq
      rcases hN : updNode g p st with ⟨stp, ep, trp⟩
      rw [hN] at hEq
      have Pp := hnode p (h p (List.mem_cons_self p rest)) st stp ep trp hN
      cases ep with
      | some e0 =>
          simp only [] at hEq
          obtain ⟨rfl, rfl, rfl⟩ := Prod.mk.injEq .. ▸ hEq
          exact updPost_weaken Pp
            (fun k hk => ⟨p, List.mem_cons_self p rest, hk⟩)
      | none =>
          simp only [] at hEq
          rcases hR : updList g i rest
              (fun j hj => h j (List.mem_cons_of_mem p hj)) stp with ⟨st2, e2, tr2⟩
          rw [hR] at hEq
          simp only [] at hEq
          have Pr := ih (fun j hj => h j (List.mem_cons_of_mem p hj)) stp st2 e2 tr2 hR
          obtain ⟨rfl, rfl, rfl⟩ := Prod.mk.injEq .. ▸ hEq
          refine updPost_weaken (updPost_comp Pp Pr) ?_
          rintro k (hk | ⟨q, hq, hkq⟩)
          · exact ⟨p, List.mem_cons_self p rest, hk⟩
          · exact ⟨q, List.mem_cons_of_mem p hq, hkq⟩

theorem updNode_post (g : Graph) :
    ∀ i st st' e tr, updNode g i st = (st', e, tr) →
      UpdPost g (fun k => k ≤ i) st st' e tr := by
  intro i
  induction i using Nat.strong_induction_on with
  | _ i IH =>
    have haux := updList_post_aux g i (fun p hp => IH p hp)
    intro st st' e tr hEq
    have hParentsLt : ∀ p ∈ (g.node i).parents, p < i := fun p hp => g.wf i p hp
    simp only [updNode] at hEq
    rcases hFn : (g.node i).updateFunc with _ | f <;> rw [hFn] at hEq
    · simp only at hEq
      obtain ⟨rfl, rfl, rfl⟩ := Prod.mk.injEq .. ▸ hEq
      exact updPost_weaken (consume_post g i st) (fun k hk => le_of_eq hk)
    · rcases hL : updList g i (g.node i).parents (fun j hj => g.wf i j hj)
          (consume g i st) with ⟨st2, e2, tr2⟩
      rw [hL] at hEq
      have PL := haux (g.node i).parents (fun j hj => g.wf i j hj) _ _ _ _ hL
      have hOkC : ∀ k, (k = i ∨ ∃ p ∈ (g.node i).parents, k ≤ p) → k ≤ i := by
        rintro k (rfl | ⟨q, hq, hkq⟩)
        · exact le_refl k
        · exact le_of_lt (lt_of_le_of_lt hkq (hParentsLt q hq))
      cases e2 with
      | some e0 =>
          simp only [] at hEq
          obtain ⟨rfl, rfl, rfl⟩ := Prod.mk.injEq .. ▸ hEq
          exact updPost_weaken (updPost_comp (consume_post g i st) PL) hOkC
      | none =>
          simp only [] at hEq
          have hSt2i : st2 i = consume g i st i :=
            PL.frame i (by
              rintro k ⟨q, hq, hkq⟩
              exact lt_of_le_of_lt hkq (hParentsLt q hq))
          have hPend2 : (st2 i).pending = Option.none := by
            rw [hSt2i]; exact consume_pending_self g i st
          cases hd : (st2 i).dirty with
          | false =>
              rw [hd, if_neg (by simp)] at hEq
              obtain ⟨rfl, rfl, rfl⟩ := Prod.mk.injEq .. ▸ hEq
              exact updPost_weaken (updPost_comp (consume_post g i st) PL) hOkC
          | true =>
              rw [hd, if_pos rfl] at hEq
              rcases hf : f ((st2 i).data)
                  ((g.node i).parents.map fun j => (st2 j).data) with c | v
              · rw [hf] at hEq
                simp only [] at hEq
                have hpost := err_post g i st2 c f hFn hf hd hPend2
                obtain ⟨rfl, rfl, rfl⟩ := Prod.mk.injEq .. ▸ hEq
                have hcomp := updPost_comp (updPost_comp (consume_post g i st) PL) hpost
                rw [List.append_nil] at hcomp
                refine updPost_weaken hcomp ?_
                rintro k (hk | hk)
                · exact hOkC k hk
                · exact absurd hk not_false
              · rw [hf] at hEq
                simp only [] at hEq
                have hpost := run_post g i st2 v (by rw [hFn]; rfl) hd hPend2
                obtain ⟨rfl, rfl, rfl⟩ := Prod.mk.injEq .. ▸ hEq
                refine updPost_weaken
                  (updPost_comp (updPost_comp (consume_post g i st) PL) hpost) ?_
                rintro k (hk | rfl)
                · exact hOkC k hk
                · exact le_refl k

theorem updList_post (g : Graph) (i : Nat) (ps : List Nat)
    (h : ∀ j ∈ ps, j < i) (st st' : St) (e : Option UpdErr) (tr : List Nat)
    (hEq : updList g i ps h st = (st', e, tr)) :
    UpdPost g (fun k => ∃ p ∈ ps, k ≤ p) st st' e tr :=
  updList_post_aux g i (fun p _ => updNode_post g p) ps h st st' e tr hEq

/-- Case-analysis principle exposing the five ways `updNode` can return. -/
theorem updNode_cases (g : Graph) (i : Nat) (st : St)
    (P : St × Option UpdErr × List Nat → Prop)
    (h0 : (g.node i).updateFunc = Option.none → P (consume g i st, Option.none, []))
    (h1 : ∀ f st2 e0 tr2, (g.node i).updateFunc = Option.some f →
      updList g i (g.node i).parents (fun j hj => g.wf i j hj) (consume g i st) =
        (st2, Option.some e0, tr2) →
      P (st2, Option.some e0, tr2))
    (h2 : ∀ f st2 tr2, (g.node i).updateFunc = Option.some f →
      updList g i (g.node i).parents (fun j hj => g.wf i j hj) (consume g i st) =
        (st2, Option.none, tr2) →
      (st2 i).dirty = false → P (st2, Option.none, tr2))
    (h3 : ∀ f st2 tr2 v, (g.node i).updateFunc = Option.some f →
      updList g i (g.node i).parents (fun j hj => g.wf i j hj) (consume g i st) =
        (st2, Option.none, tr2) →
      (st2 i).dirty = true →
      f ((st2 i).data) ((g.node i).parents.map fun j => (st2 j).data) = Except.ok v →
      P (setSt st2 i { data := v, validated := (st2 i).validated,
                       pending := (st2 i).pending, dirty := false },
         Option.none, tr2 ++ [i]))
    (h4 : ∀ f st2 tr2 c, (g.node i).updateFunc = Option.some f →
      updList g i (g.node i).parents (fun j hj => g.wf i j hj) (consume g i st) =
        (st2, Option.none, tr2) →
      (st2 i).dirty = true →
      f ((st2 i).data) ((g.node i).parents.map fun j => (st2 j).data) =
        Except.error c →
      P (st2, Option.some ⟨i, c⟩, tr2)) :
    P (updNode g i st) := by
  simp only [updNode]
  rcases hFn : (g.node i).updateFunc with _ | f
  · simp only []
    exact h0 hFn
  · simp only []
    rcases hL : updList g i (g.node i).parents (fun j hj => g.wf i j hj)
        (consume g i st) with ⟨st2, e2, tr2⟩
    cases e2 with
    | some e0 =>
        simp only []
        exact h1 f st2 e0 tr2 hFn hL
    | none =>
        simp only []
        cases hd : (st2 i).dirty with
        | false =>
            simp only [hd, Bool.false_eq_true, if_false]
            exact h2 f st2 tr2 hFn hL hd
        | true =>
            simp only [hd, if_true]
            rcases hf : f ((st2 i).data)
                ((g.node i).parents.map fun j => (st2 j).data) with c | v
            · simp only []
              exact h4 f st2 tr2 c hFn hL hd hf
            · simp only []
              exact h3 f st2 tr2 v hFn hL hd hf

/-- After `_update`, the control's own pending buffer is always empty. -/
theorem updNode_pending_self (g : Graph) (i : Nat) (st st' : St)
    (e : Option UpdErr) (tr : List Nat) (hEq : updNode g i st = (st', e, tr)) :
    (st' i).pending = Option.none := by
  have hPar : ∀ k, (∃ p ∈ (g.node i).parents, k ≤ p) → k < i :=
    fun k ⟨p, hp, hkp⟩ => lt_of_le_of_lt hkp (g.wf i p hp)
  have := updNode_cases g i st
    (fun r => r = (st', e, tr) → (st' i).pending = Option.none)
    (fun _ h => by
      obtain ⟨rfl, rfl, rfl⟩ := Prod.mk.injEq .. ▸ h
      exact consume_pending_self g i st)
    (fun f st2 e0 tr2 _ hL h => by
      obtain ⟨rfl, rfl, rfl⟩ := Prod.mk.injEq .. ▸ h
      have := (updList_post g i _ _ _ _ _ _ hL).frame i (fun k hk => hPar k hk)
      rw [this]; exact consume_pending_self g i st)
    (fun f st2 tr2 _ hL _ h => by
      obtain ⟨rfl, rfl, rfl⟩ := Prod.mk.injEq .. ▸ h
      have := (updList_post g i _ _ _ _ _ _ hL).frame i (fun k hk => hPar k hk)
      rw [this]; exact consume_pending_self g i st)
    (fun f st2 tr2 v _ hL _ _ h => by
      obtain ⟨rfl, rfl, rfl⟩ := Prod.mk.injEq .. ▸ h
      have := (updList_post g i _ _ _ _ _ _ hL).frame i (fun k hk => hPar k hk)
      simp only [setSt_same]
      rw [this]; exact consume_pending_self g i st)
    (fun f st2 tr2 c _ hL _ _ h => by
      obtain ⟨rfl, rfl, rfl⟩ := Prod.mk.injEq .. ▸ h
      have := (updList_post g i _ _ _ _ _ _ hL).frame i (fun k hk => hPar k hk)
      rw [this]; exact consume_pending_self g i st)
  exact this hEq

/-- A walk that ran no update function and left every pending buffer as it
found it did not change the state at all (state changes are only ever made
when a pending view is consumed or an update function runs). -/
theorem updList_stuck_aux (g : Graph) (i : Nat)
    (hnode : ∀ p, p < i → ∀ st st' e, updNode g p st = (st', e, []) →
      (∀ j, (st' j).pending = (st j).pending) → st' = st) :
    ∀ ps (h : ∀ j ∈ ps, j < i) st st' e,
      updList g i ps h st = (st', e, []) →
      (∀ j, (st' j).pending = (st j).pending) → st' = st := by
  intro ps
  induction ps with
  | nil =>
      intro h st st' e hEq _
      simp only [updList] at hEq
      obtain ⟨rfl, rfl, rfl⟩ := Prod.mk.injEq .. ▸ hEq
      rfl
  | cons p rest ih =>
      intro h st st' e hEq hPend
      simp only [updList] at hEq
      rcases hN : updNode g p st with ⟨stp, ep, trp⟩
      rw [hN] at hEq
      cases ep with
      | some e0 =>
          simp only [] at hEq
          obtain ⟨rfl, rfl, rfl⟩ := Prod.mk.injEq .. ▸ hEq
          exact hnode p (h p (List.mem_cons_self p rest)) st stp _ hN hPend
      | none =>
          simp only [] at hEq
          rcases hR : updList g i rest
              (fun j hj => h j (List.mem_cons_of_mem p hj)) stp with ⟨st2, e2, tr2⟩
          rw [hR] at hEq
          simp only [] at hEq
          injection hEq with h1 h23
          injection h23 with h2 h3
          subst h1
          subst h2
          obtain ⟨hTrp, hTr2⟩ := List.append_eq_nil.1 h3
          subst hTrp
          subst hTr2
          have hPp := updNode_post g p st stp Option.none [] hN
          have hPr := updList_post g i rest
            (fun j hj => h j (List.mem_cons_of_mem p hj)) stp st2 e2 [] hR
          have hstp : ∀ j, (stp j).pending = (st j).pending := by
            intro j
            rcases hPp.pendMono j with h1 | h1
            · exact h1
            · rcases hPr.pendMono j with h2 | h2
              · rw [h1, ← hPend j, h2, h1]
              · rw [h1, ← hPend j, h2]
          have hstpSt : stp = st :=
            hnode p (h p (List.mem_cons_self p rest)) st stp _ hN hstp
          rw [hstpSt] at hR
          exact ih (fun j hj => h j (List.mem_cons_of_mem p hj)) st st2 _ hR hPend

theorem updNode_stuck (g : Graph) : ∀ i st st' e,
    updNode g i st = (st', e, []) →
    (∀ j, (st' j).pending = (st j).pending) → st' = st := by
  intro i
  induction i using Nat.strong_induction_on with
  | _ i IH =>
    intro st st' e hEq hPend
    have hPar : ∀ k, (∃ p ∈ (g.node i).parents, k ≤ p) → k < i :=
      fun k ⟨p, hp, hkp⟩ => lt_of_le_of_lt hkp (g.wf i p hp)
    -- common step: a trace-empty parent walk on `consume g i st` that returns
    -- the final state forces `st' = st`.
    have hCommon : ∀ e2,
        updList g i (g.node i).parents (fun j hj => g.wf i j hj)
          (consume g i st) = (st', e2, []) → st' = st := by
      intro e2 hL
      have hFr := (updList_post g i _ _ _ _ _ _ hL).frame i (fun k hk => hPar k hk)
      have hPendC : ∀ j, (st' j).pending = ((consume g i st) j).pending := by
        intro j
        by_cases hj : j = i
        · subst hj
          rw [consume_pending_self g j st, hFr, consume_pending_self g j st]
        · rw [consume_other g i j st hj]; exact hPend j
      have hStC : st' = consume g i st :=
        updList_stuck_aux g i (fun p hp => IH p hp) _ _ _ _ _ hL hPendC
      have hPendNone : (st i).pending = Option.none := by
        rcases hp : (st i).pending with _ | v
        · rfl
        · have h1 := hPend i
          rw [hStC] at h1
          rw [consume_pending_self g i st, hp] at h1
          cases h1
      rw [hStC, consume_of_none g i st hPendNone]
    have := updNode_cases g i st
      (fun r => r = (st', e, []) → st' = st)
      (fun hFn h => by
        obtain ⟨rfl, rfl, rfl⟩ := Prod.mk.injEq .. ▸ h
        have hPendNone : (st i).pending = Option.none := by
          rcases hp : (st i).pending with _ | v
          · rfl
          · have h1 := hPend i
            rw [consume_pending_self g i st, hp] at h1
            cases h1
        exact consume_of_none g i st hPendNone)
      (fun f st2 e0 tr2 _ hL h => by
        obtain ⟨rfl, rfl, rfl⟩ := Prod.mk.injEq .. ▸ h
        exact hCommon _ hL)
      (fun f st2 tr2 _ hL _ h => by
        obtain ⟨rfl, rfl, rfl⟩ := Prod.mk.injEq .. ▸ h
        exact hCommon _ hL)
      (fun f st2 tr2 v _ hL _ _ h => by
        exfalso
        have h3 : tr2 ++ [i] = [] := by
          injection h with h1 h23
          injection h23 with h2 h3
        simpa using congrArg List.length h3)
      (fun f st2 tr2 c _ hL _ _ h => by
        obtain ⟨rfl, rfl, rfl⟩ := Prod.mk.injEq .. ▸ h
        exact hCommon _ hL)
    exact this hEq

/-! ### Resolved controls: `_update` as a no-op -/

/-- `_update` on control `i` does nothing from state `st`: the control and
its whole ancestor cone are fully resolved. -/
def NoopAt (g : Graph) (st : St) (i : Nat) : Prop :=
  updNode g i st = (st, Option.none, [])

theorem updList_noop (g : Graph) (i : Nat) (ps : List Nat)
    (h : ∀ j ∈ ps, j < i) (st : St) (hN : ∀ p ∈ ps, NoopAt g st p) :
    updList g i ps h st = (st, Option.none, []) := by
  induction ps with
  | nil => simp only [updList]
  | cons p rest ih =>
      simp only [updList]
      rw [hN p (List.mem_cons_self p rest)]
      simp only []
      rw [ih (fun j hj => h j (List.mem_cons_of_mem p hj))
          (fun q hq => hN q (List.mem_cons_of_mem p hq))]
      rfl

theorem noop_intro (g : Graph) (st : St) (i : Nat) (hq : Quiet g st i)
    (hp : (g.node i).updateFunc.isSome → ∀ p ∈ (g.node i).parents, NoopAt g st p) :
    NoopAt g st i := by
  unfold NoopAt
  have hc : consume g i st = st := consume_of_none g i st hq.1
  simp only [updNode, hc]
  rcases hFn : (g.node i).updateFunc with _ | f
  · simp only []
  · simp only []
    rw [updList_noop g i (g.node i).parents (fun j hj => g.wf i j hj) st
        (hp (by rw [hFn]; rfl))]
    simp only []
    have hd : (st i).dirty = false := hq.2 (by rw [hFn]; rfl)
    simp [hd]

/-- Extract per-parent no-ops from a no-op parent walk. -/
theorem updList_noop_elim (g : Graph) (i : Nat) :
    ∀ ps (h : ∀ j ∈ ps, j < i) st,
      updList g i ps h st = (st, Option.none, []) → ∀ p ∈ ps, NoopAt g st p := by
  intro ps
  induction ps with
  | nil => intro h st _ p hp; exact absurd hp (List.not_mem_nil p)
  | cons p rest ih =>
      intro h st hEq q hq
      simp only [updList] at hEq
      rcases hN : updNode g p st with ⟨stp, ep, trp⟩
      rw [hN] at hEq
      cases ep with
      | some e0 =>
          simp only [] at hEq
          injection hEq with h1 h23
          injection h23 with h2 h3
          cases h2
      | none =>
          simp only [] at hEq
          rcases hR : updList g i rest
              (fun j hj => h j (List.mem_cons_of_mem p hj)) stp with ⟨st2, e2, tr2⟩
          rw [hR] at hEq
          simp only [] at hEq
          injection hEq with h1 h23
          injection h23 with h2 h3
          obtain ⟨hTrp, hTr2⟩ := List.append_eq_nil.1 h3
          subst hTrp
          subst hTr2
          subst h2
          rw [h1] at hR
          -- the head update changed no pending buffer, hence no state
          have hPp := updNode_post g p st stp Option.none [] hN
          have hPr := updList_post g i rest
            (fun j hj => h j (List.mem_cons_of_mem p hj)) stp st Option.none [] hR
          have hstp : ∀ j, (stp j).pending = (st j).pending := by
            intro j
            rcases hPp.pendMono j with h1' | h1'
            · exact h1'
            · rcases hPr.pendMono j with h2' | h2'
              · rw [h1', h2', h1']
              · rw [h1', h2']
          have hstpSt : stp = st := updNode_stuck g p st stp _ hN hstp
          rw [hstpSt] at hN hR
          rcases List.mem_cons.1 hq with rfl | hq
          · exact hN
          · exact ih (fun j hj => h j (List.mem_cons_of_mem p hj)) st hR q hq

theorem noop_elim (g : Graph) (st : St) (i : Nat) (h : NoopAt g st i) :
    Quiet g st i ∧
      ((g.node i).updateFunc.isSome → ∀ p ∈ (g.node i).parents, NoopAt g st p) := by
  unfold NoopAt at h
  have hPar : ∀ k, (∃ p ∈ (g.node i).parents, k ≤ p) → k < i :=
    fun k ⟨p, hp, hkp⟩ => lt_of_le_of_lt hkp (g.wf i p hp)
  have hPendI : (st i).pending = Option.none := by
    have := updNode_pending_self g i st st Option.none [] h
    exact this
  have hc : consume g i st = st := consume_of_none g i st hPendI
  revert h
  have := updNode_cases g i st
    (fun r => r = (st, Option.none, []) →
      Quiet g st i ∧
        ((g.node i).updateFunc.isSome →
          ∀ p ∈ (g.node i).parents, NoopAt g st p))
    (fun hFn hEq => by
      refine ⟨⟨hPendI, ?_⟩, ?_⟩
      · intro hSome; rw [hFn] at hSome; cases hSome
      · intro hSome; rw [hFn] at hSome; cases hSome)
    (fun f st2 e0 tr2 hFn hL hEq => by
      exfalso
      injection hEq with h1 h23
      injection h23 with h2 h3
      cases h2)
    (fun f st2 tr2 hFn hL hd hEq => by
      injection hEq with h1 h23
      injection h23 with h2 h3
      subst h3
      rw [h1] at hL hd
      rw [hc] at hL
      refine ⟨⟨hPendI, fun _ => hd⟩, fun _ => ?_⟩
      exact updList_noop_elim g i (g.node i).parents (fun j hj => g.wf i j hj) st hL)
    (fun f st2 tr2 v hFn hL hd hf hEq => by
      exfalso
      injection hEq with h1 h23
      injection h23 with h2 h3
      simpa using congrArg List.length h3)
    (fun f st2 tr2 c hFn hL hd hf hEq => by
      exfalso
      injection hEq with h1 h23
      injection h23 with h2 h3
      cases h2)
  exact this

/-- A no-op control stays a no-op under any state evolution that preserves
the state of at-rest controls up to its own index. -/
theorem noop_preserve (g : Graph) (st st' : St) :
    ∀ j, (∀ k, k ≤ j → Quiet g st k → st' k = st k) →
      NoopAt g st j → NoopAt g st' j := by
  intro j
  induction j using Nat.strong_induction_on with
  | _ j IH =>
    intro hqf h
    obtain ⟨hq, hpar⟩ := noop_elim g st j h
    have hj : st' j = st j := hqf j (le_refl j) hq
    refine noop_intro g st' j ?_ ?_
    · unfold Quiet QuietAt at hq ⊢
      rw [hj]
      exact hq
    · intro hSome q hq'
      have hqj : q < j := g.wf j q hq'
      exact IH q hqj
        (fun k hk hkq => hqf k (le_of_lt (lt_of_le_of_lt hk hqj)) hkq)
        (hpar hSome q hq')

/-- `_update` of any control preserves no-op-ness of every control. -/
theorem noop_frame (g : Graph) (st st' : St) (i : Nat) (e : Option UpdErr)
    (tr : List Nat) (hEq : updNode g i st = (st', e, tr)) (j : Nat)
    (h : NoopAt g st j) : NoopAt g st' j :=
  noop_preserve g st st' j
    (fun k _ hk => (updNode_post g i st st' e tr hEq).quietFrame k hk) h

theorem updList_noop_post_aux (g : Graph) (i : Nat)
    (hnode : ∀ p, p < i → ∀ st st' tr,
      updNode g p st = (st', Option.none, tr) → NoopAt g st' p) :
    ∀ ps (h : ∀ j ∈ ps, j < i) st st' tr,
      updList g i ps h st = (st', Option.none, tr) → ∀ p ∈ ps, NoopAt g st' p := by
  intro ps
  induction ps with
  | nil => intro h st st' tr _ p hp; exact absurd hp (List.not_mem_nil p)
  | cons p rest ih =>
      intro h st st' tr hEq q hq
      simp only [updList] at hEq
      rcases hN : updNode g p st with ⟨stp, ep, trp⟩
      rw [hN] at hEq
      cases ep with
      | some e0 =>
          simp only [] at hEq
          injection hEq with h1 h23
          injection h23 with h2 h3
          cases h2
      | none =>
          simp only [] at hEq
          rcases hR : updList g i rest
              (fun j hj => h j (List.mem_cons_of_mem p hj)) stp with ⟨st2, e2, tr2⟩
          rw [hR] at hEq
          simp only [] at hEq
          injection hEq with h1 h23
          injection h23 with h2 h3
          rw [h2] at hR
          rw [← h1]
          rcases List.mem_cons.1 hq with rfl | hq
          · have hNp := hnode q (h q (List.mem_cons_self q rest)) st stp trp hN
            exact noop_preserve g stp st2 q
              (fun k _ hk =>
                (updList_post g i rest _ stp st2 Option.none tr2 hR).quietFrame k hk)
              hNp
          · exact ih (fun j hj => h j (List.mem_cons_of_mem p hj)) stp st2 tr2 hR q hq

theorem updNode_noop_post (g : Graph) :
    ∀ i st st' tr, updNode g i st = (st', Option.none, tr) → NoopAt g st' i := by
  intro i
  induction i using Nat.strong_induction_on with
  | _ i IH =>
    intro st st' tr hEq
    have hPar : ∀ k, (∃ p ∈ (g.node i).parents, k ≤ p) → k < i :=
      fun k ⟨p, hp, hkp⟩ => lt_of_le_of_lt hkp (g.wf i p hp)
    have haux := updList_noop_post_aux g i (fun p hp => IH p hp)
    have := updNode_cases g i st
      (fun r => r = (st', Option.none, tr) → NoopAt g st' i)
      (fun hFn h => by
        injection h with h1 h23
        injection h23 with h2 h3
        rw [← h1]
        refine noop_intro g (consume g i st) i
          ⟨consume_pending_self g i st, fun hSome => ?_⟩ (fun hSome => ?_) <;>
          · rw [hFn] at hSome; cases hSome)
      (fun f st2 e0 tr2 _ hL h => by
        exfalso
        injection h with h1 h23
        injection h23 with h2 h3
        cases h2)
      (fun f st2 tr2 hFn hL hd h => by
        injection h with h1 h23
        injection h23 with h2 h3
        rw [← h1]
        have hFr := (updList_post g i _ _ _ _ _ _ hL).frame i
          (fun k hk => hPar k hk)
        refine noop_intro g st2 i ⟨?_, fun _ => hd⟩ (fun _ => ?_)
        · rw [hFr]; exact consume_pending_self g i st
        · exact haux (g.node i).parents (fun j hj => g.wf i j hj)
            (consume g i st) st2 tr2 hL
      )
      (fun f st2 tr2 v hFn hL hd hf h => by
        injection h with h1 h23
        injection h23 with h2 h3
        rw [← h1]
        have hFr := (updList_post g i _ _ _ _ _ _ hL).frame i
          (fun k hk => hPar k hk)
        have hPend2 : (st2 i).pending = Option.none := by
          rw [hFr]; exact consume_pending_self g i st
        have hPars := haux (g.node i).parents (fun j hj => g.wf i j hj)
          (consume g i st) st2 tr2 hL
        refine noop_intro g _ i ⟨?_, fun _ => ?_⟩ (fun _ q hq => ?_)
        · simp [hPend2]
        · simp
        · have hqi : q < i := g.wf i q hq
          exact noop_preserve g st2 _ q
            (fun k hk _ => setSt_other st2 i k _ (by omega))
            (hPars q hq))
      (fun f st2 tr2 c _ hL hd hf h => by
        exfalso
        injection h with h1 h23
        injection h23 with h2 h3
        cases h2)
    exact this hEq

/-! ### Controller-level operations -/

/-- Errors a `Controller.list` / `Controller.apply` call can surface:
`ValidationError` from `Control.apply`, `UpdateError` from `_update`. -/
inductive CtlErr where
  | validation (id : Nat) (cause : String)
  | update (id : Nat) (cause : String)
  deriving DecidableEq, Repr

/-- `Control.apply` (controls.py:132-134) on a `TextField`: `_validate` the
view against the bound validator (storing the converted value in
`_validated_value` on success, raising `ValidationError(cause, id)` on
failure) and then store the view in the pending buffer.  Controls without a
validator only buffer the view (`Control._validate` is a no-op). -/
def applyCtl (g : Graph) (i : Nat) (v : Value) (st : St) : St × Option CtlErr :=
  match (g.node i).validator with
  | Option.none =>
      (setSt st i { st i with pending := Option.some v }, Option.none)
  | Option.some vd =>
      match vd v with
      | Except.ok w =>
          (setSt st i { st i with validated := w, pending := Option.some v },
           Option.none)
      | Except.error c => (st, Option.some (CtlErr.validation i c))

/-- `_value`: `Apply._value` is always `None`; `TextField._value` is
`self._validated_value or self.data` under Python truthiness
(controls.py:209-210). -/
def nodeValueRaw (nd : Node) (ns : NodeState) : Value :=
  if nd.isApply then Value.none else pyOr ns.validated ns.data

/-- The packed view fields the claims are about: a text-field view carries
its data, an Apply view carries its enabled flag. -/
inductive ViewOut where
  | field (id : Nat) (data : Value)
  | applyV (id : Nat) (enabled : Bool)
  deriving DecidableEq, Repr

/-- The scan of `Apply._view` (controls.py:404-412): walk every control of
the owning controller in map order; skip itself and optional controls; call
`value()` (which runs `_update`, threading state and propagating
`UpdateError`) on the others and disable the view at the first null value,
breaking out of the loop as the Python `break` does. -/
def applyScan (g : Graph) (a : Nat) : List Nat → St →
    Bool × St × Option UpdErr × List Nat
  | [], st => (true, st, Option.none, [])
  | j :: rest, st =>
      if j ≠ a ∧ ¬ optTruthy (g.node j).optional then
        match updNode g j st with
        | (st', Option.some e, tr) => (true, st', Option.some e, tr)
        | (st', Option.none, tr) =>
            if nodeValueRaw (g.node j) (st' j) = Value.none then
              (false, st', Option.none, tr)
            else
              match applyScan g a rest st' with
              | (en, st'', e, tr') => (en, st'', e, tr ++ tr')
      else applyScan g a rest st

/-- `Control.view()` (controls.py:128-130): `_update` then `_view`.  For an
`Apply` control, `_view` runs the scan above. -/
def viewCtl (g : Graph) (i : Nat) (st : St) :
    St × List Nat × Except CtlErr ViewOut :=
  match updNode g i st with
  | (st', Option.some e, tr) => (st', tr, Except.error (CtlErr.update e.id e.cause))
  | (st', Option.none, tr) =>
      if (g.node i).isApply then
        match applyScan g i (List.range g.size) st' with
        | (_, st2, Option.some e, tr2) =>
            (st2, tr ++ tr2, Except.error (CtlErr.update e.id e.cause))
        | (en, st2, Option.none, tr2) =>
            (st2, tr ++ tr2, Except.ok (ViewOut.applyV i en))
      else (st', tr, Except.ok (ViewOut.field i (st' i).data))

/-- The `for view in views: self.map[view.id].apply(view)` loop shared by
`Controller.list` and `Controller.apply`. -/
def applyViews (g : Graph) : List (Nat × Value) → St → St × Option CtlErr
  | [], st => (st, Option.none)
  | (i, v) :: rest, st =>
      match applyCtl g i v st with
      | (st', Option.some e) => (st', Option.some e)
      | (st', Option.none) => applyViews g rest st'

/-- The `[c.view() for c in self.map.values()]` comprehension of
`Controller.list`, stopping at the first raised error. -/
def viewsAll (g : Graph) : List Nat → St →
    St × List Nat × Except CtlErr (List ViewOut)
  | [], st => (st, [], Except.ok [])
  | i :: order, st =>
      match viewCtl g i st with
      | (st', tr, Except.error e) => (st', tr, Except.error e)
      | (st', tr, Except.ok vw) =>
          match viewsAll g order st' with
          | (st2, tr', r) => (st2, tr ++ tr', r.map (vw :: ·))

/-- `Controller.list(views)` (controls.py:448-454): apply each supplied view
to the control with its id, then return every control's view in map order.
Also returns the trace of update functions that ran, in run order. -/
def listCtl (g : Graph) (views : List (Nat × Value)) (st : St) :
    St × List Nat × Except CtlErr (List ViewOut) :=
  match applyViews g views st with
  | (st', Option.some e) => (st', [], Except.error e)
  | (st', Option.none) => viewsAll g (List.range g.size) st'

/-- The `[self.map[c_id].value() for c_id in self._ids]` comprehension of
`Controller.apply`. -/
def valuesOf (g : Graph) : List Nat → St →
    St × List Nat × Except CtlErr (List Value)
  | [], st => (st, [], Except.ok [])
  | i :: ids, st =>
      match updNode g i st with
      | (st', Option.some e, tr) =>
          (st', tr, Except.error (CtlErr.update e.id e.cause))
      | (st', Option.none, tr) =>
          match valuesOf g ids st' with
          | (st2, tr', r) =>
              (st2, tr ++ tr', r.map (nodeValueRaw (g.node i) (st' i) :: ·))

/-- An error escaping `Controller.apply(func, views)`: a control error or an
exception raised by the target function itself. -/
inductive RunErr where
  | ctl (e : CtlErr)
  | fn (cause : String)
  deriving DecidableEq, Repr

/-- `Controller.apply(func, views)` (controls.py:456-462): apply the views,
resolve every registered control's value in registration order (`_ids`), and
invoke the function positionally on those values. -/
def ctlApplyFunc (g : Graph) (ids : List Nat)
    (func : List Value → Except String Value)
    (views : List (Nat × Value)) (st : St) : St × Except RunErr Value :=
  match applyViews g views st with
  | (st', Option.some e) => (st', Except.error (RunErr.ctl e))
  | (st', Option.none) =>
      match valuesOf g ids st' with
      | (st2, _, Except.error e) => (st2, Except.error (RunErr.ctl e))
      | (st2, _, Except.ok vs) =>
          match func vs with
          | Except.ok out => (st2, Except.ok out)
          | Except.error c => (st2, Except.error (RunErr.fn c))

/-! ### State-evolution facts shared by all `_update`-driven operations -/

structure EvPost (g : Graph) (st st' : St) : Prop where
  quietFrame : ∀ j, Quiet g st j → st' j = st j
  noopFrame : ∀ j, NoopAt g st j → NoopAt g st' j
  pendMono : ∀ j, (st' j).pending = (st j).pending ∨ (st' j).pending = Option.none

theorem evPost_refl (g : Graph) (st : St) : EvPost g st st where
  quietFrame _ _ := rfl
  noopFrame _ h := h
  pendMono _ := Or.inl rfl

theorem evPost_trans {g : Graph} {st st2 st3 : St}
    (h1 : EvPost g st st2) (h2 : EvPost g st2 st3) : EvPost g st st3 where
  quietFrame j hq := by
    have e1 := h1.quietFrame j hq
    rw [h2.quietFrame j ((quiet_congr g st st2 j e1).1 hq), e1]
  noopFrame j h := h2.noopFrame j (h1.noopFrame j h)
  pendMono j := by
    rcases h2.pendMono j with h | h
    · rw [h]; exact h1.pendMono j
    · exact Or.inr h

theorem evPost_updNode {g : Graph} {i : Nat} {st st' : St} {e : Option UpdErr}
    {tr : List Nat} (hEq : updNode g i st = (st', e, tr)) : EvPost g st st' where
  quietFrame j hq := (updNode_post g i st st' e tr hEq).quietFrame j hq
  noopFrame j h := noop_frame g st st' i e tr hEq j h
  pendMono j := (updNode_post g i st st' e tr hEq).pendMono j

theorem evPost_scan {g : Graph} {a : Nat} :
    ∀ {order : List Nat} {st : St} {en : Bool} {st' : St} {e : Option UpdErr}
      {tr : List Nat},
      applyScan g a order st = (en, st', e, tr) → EvPost g st st' := by
  intro order
  induction order with
  | nil =>
      intro st en st' e tr hEq
      simp only [applyScan] at hEq
      obtain ⟨rfl, rfl, rfl, rfl⟩ := Prod.mk.injEq .. ▸ hEq
      exact evPost_refl g st
  | cons j rest ih =>
      intro st en st' e tr hEq
      simp only [applyScan] at hEq
      by_cases hc : j ≠ a ∧ ¬ optTruthy (g.node j).optional
      · rw [if_pos hc] at hEq
        rcases hN : updNode g j st with ⟨stJ, eJ, trJ⟩
        rw [hN] at hEq
        cases eJ with
        | some e0 =>
            simp only [] at hEq
            obtain ⟨rfl, rfl, rfl, rfl⟩ := Prod.mk.injEq .. ▸ hEq
            exact evPost_updNode hN
        | none =>
            simp only [] at hEq
            by_cases hv : nodeValueRaw (g.node j) (stJ j) = Value.none
            · rw [if_pos hv] at hEq
              obtain ⟨rfl, rfl, rfl, rfl⟩ := Prod.mk.injEq .. ▸ hEq
              exact evPost_updNode hN
            · rw [if_neg hv] at hEq
              rcases hR : applyScan g a rest stJ with ⟨en2, st2, e2, tr2⟩
              rw [hR] at hEq
              simp only [] at hEq
              have hEv := ih hR
              obtain ⟨rfl, rfl, rfl, rfl⟩ := Prod.mk.injEq .. ▸ hEq
              exact evPost_trans (evPost_updNode hN) hEv
      · rw [if_neg hc] at hEq
        exact ih hEq

theorem evPost_viewCtl {g : Graph} {i : Nat} {st st' : St} {tr : List Nat}
    {r : Except CtlErr ViewOut} (hEq : viewCtl g i st = (st', tr, r)) :
    EvPost g st st' := by
  simp only [viewCtl] at hEq
  rcases hN : updNode g i st with ⟨st1, e1, tr1⟩
  rw [hN] at hEq
  cases e1 with
  | some e0 =>
      simp only [] at hEq
      obtain ⟨rfl, rfl, rfl⟩ := Prod.mk.injEq .. ▸ hEq
      exact evPost_updNode hN
  | none =>
      simp only [] at hEq
      by_cases hA : (g.node i).isApply
      · rw [if_pos hA] at hEq
        rcases hS : applyScan g i (List.range g.size) st1 with ⟨en, st2, e2, tr2⟩
        rw [hS] at hEq
        have hEv := evPost_trans (evPost_updNode hN) (evPost_scan hS)
        cases e2 with
        | some e0 =>
            simp only [] at hEq
            obtain ⟨rfl, rfl, rfl⟩ := Prod.mk.injEq .. ▸ hEq
            exact hEv
        | none =>
            simp only [] at hEq
            obtain ⟨rfl, rfl, rfl⟩ := Prod.mk.injEq .. ▸ hEq
            exact hEv
      · rw [if_neg hA] at hEq
        obtain ⟨rfl, rfl, rfl⟩ := Prod.mk.injEq .. ▸ hEq
        exact evPost_updNode hN

theorem evPost_viewsAll {g : Graph} :
    ∀ {order : List Nat} {st st' : St} {tr : List Nat}
      {r : Except CtlErr (List ViewOut)},
      viewsAll g order st = (st', tr, r) → EvPost g st st' := by
  intro order
  induction order with
  | nil =>
      intro st st' tr r hEq
      simp only [viewsAll] at hEq
      obtain ⟨rfl, rfl, rfl⟩ := Prod.mk.injEq .. ▸ hEq
      exact evPost_refl g st
  | cons i order ih =>
      intro st st' tr r hEq
      simp only [viewsAll] at hEq
      rcases hV : viewCtl g i st with ⟨st1, tr1, r1⟩
      rw [hV] at hEq
      cases r1 with
      | error e0 =>
          simp only [] at hEq
          obtain ⟨rfl, rfl, rfl⟩ := Prod.mk.injEq .. ▸ hEq
          exact evPost_viewCtl hV
      | ok vw =>
          simp only [] at hEq
          rcases hR : viewsAll g order st1 with ⟨st2, tr2, r2⟩
          rw [hR] at hEq
          simp only [] at hEq
          have hEv := evPost_trans (evPost_viewCtl hV) (ih hR)
          obtain ⟨rfl, rfl, rfl⟩ := Prod.mk.injEq .. ▸ hEq
          exact hEv

theorem evPost_updList {g : Graph} {i : Nat} {ps : List Nat}
    {h : ∀ j ∈ ps, j < i} {st st' : St} {e : Option UpdErr} {tr : List Nat}
    (hEq : updList g i ps h st = (st', e, tr)) : EvPost g st st' where
  quietFrame j hq := (updList_post g i ps h st st' e tr hEq).quietFrame j hq
  noopFrame j hn :=
    noop_preserve g st st' j
      (fun k _ hk => (updList_post g i ps h st st' e tr hEq).quietFrame k hk) hn
  pendMono j := (updList_post g i ps h st st' e tr hEq).pendMono j

/-! ### Re-running `_update` after a failure or after success -/

/-- A failed `_update` walk, re-run from the state it left behind, fails at
the same control with the same cause, runs no update function, and leaves
the state untouched (the dirty flag of the failed control was not cleared,
everything before it is already resolved). -/
theorem updList_err_restart_aux (g : Graph) (i : Nat)
    (hnode : ∀ p, p < i → ∀ st st' err tr,
      updNode g p st = (st', Option.some err, tr) →
      updNode g p st' = (st', Option.some err, [])) :
    ∀ ps (h : ∀ j ∈ ps, j < i) st st' err tr,
      updList g i ps h st = (st', Option.some err, tr) →
      updList g i ps h st' = (st', Option.some err, []) := by
  intro ps
  induction ps with
  | nil =>
      intro h st st' err tr hEq
      simp only [updList] at hEq
      injection hEq with h1 h23
      injection h23 with h2 h3
      cases h2
  | cons p rest ih =>
      intro h st st' err tr hEq
      simp only [updList] at hEq
      rcases hN : updNode g p st with ⟨stp, ep, trp⟩
      rw [hN] at hEq
      cases ep with
      | some e0 =>
          simp only [] at hEq
          injection hEq with h1 h23
          injection h23 with h2 h3
          injection h2 with h2
          simp only [updList]
          rw [← h1, ← h2]
          rw [hnode p (h p (List.mem_cons_self p rest)) st stp e0 trp hN]
      | none =>
          simp only [] at hEq
          rcases hR : updList g i rest
              (fun j hj => h j (List.mem_cons_of_mem p hj)) stp with ⟨st2, e2, tr2⟩
          rw [hR] at hEq
          simp only [] at hEq
          injection hEq with h1 h23
          injection h23 with h2 h3
          simp only [updList]
          rw [h2] at hR
          rw [← h1]
          have hreR := ih (fun j hj => h j (List.mem_cons_of_mem p hj))
            stp st2 err tr2 hR
          -- the head control is resolved in `stp` and stays resolved in `st2`
          have hNp : NoopAt g st2 p :=
            (evPost_updList hR).noopFrame p
              (updNode_noop_post g p st stp trp hN)
          rw [hNp]
          simp only []
          rw [hreR]
          rfl

/-- Re-running a failed `_update` from the state it left behind raises the
same `UpdateError` again, without running any update function or changing
any state: the failed control's dirty flag was never cleared, so the walk
reaches it and retries the same update function on the same data. -/
theorem updNode_err_restart (g : Graph) :
    ∀ i st st' err tr, updNode g i st = (st', Option.some err, tr) →
      updNode g i st' = (st', Option.some err, []) := by
  intro i
  induction i using Nat.strong_induction_on with
  | _ i IH =>
    intro st st' err tr hEq
    have hPend : (st' i).pending = Option.none :=
      updNode_pending_self g i st st' _ tr hEq
    have hc : consume g i st' = st' := consume_of_none g i st' hPend
    have := updNode_cases g i st
      (fun r => r = (st', Option.some err, tr) →
        updNode g i st' = (st', Option.some err, []))
      (fun hFn h => by
        injection h with h1 h23; injection h23 with h2 h3; cases h2)
      (fun f st2 e0 tr2 hFn hL h => by
        injection h with h1 h23
        injection h23 with h2 h3
        injection h2 with h2
        rw [h1, h2] at hL
        have hre := updList_err_restart_aux g i (fun p hp => IH p hp)
          (g.node i).parents (fun j hj => g.wf i j hj) _ st' err tr2 hL
        simp only [updNode, hc, hFn]
        rw [hre])
      (fun f st2 tr2 hFn hL hd h => by
        injection h with h1 h23; injection h23 with h2 h3; cases h2)
      (fun f st2 tr2 v hFn hL hd hf h => by
        injection h with h1 h23; injection h23 with h2 h3; cases h2)
      (fun f st2 tr2 c hFn hL hd hf h => by
        injection h with h1 h23
        injection h23 with h2 h3
        injection h2 with h2
        have hPars : ∀ p ∈ (g.node i).parents, NoopAt g st2 p :=
          updList_noop_post_aux g i (fun p _ => updNode_noop_post g p)
            (g.node i).parents (fun j hj => g.wf i j hj) _ _ _ hL
        rw [h1] at hPars hd hf
        simp only [updNode, hc, hFn]
        rw [updList_noop g i (g.node i).parents (fun j hj => g.wf i j hj) st' hPars]
        simp only []
        rw [hd, if_pos rfl, hf]
        simp only []
        rw [← h2])
    exact this hEq

/-- After a successful `Apply._view` scan, re-running the scan from any
later state that only evolved by `_update`s yields the same enabled flag,
runs nothing, and changes nothing. -/
theorem applyScan_restart (g : Graph) (a : Nat) :
    ∀ order st en st2 tr,
      applyScan g a order st = (en, st2, Option.none, tr) →
      ∀ st'', EvPost g st2 st'' →
        applyScan g a order st'' = (en, st'', Option.none, []) := by
  intro order
  induction order with
  | nil =>
      intro st en st2 tr hEq st'' hEv
      simp only [applyScan] at hEq
      injection hEq with hEn h2
      simp only [applyScan]
      rw [← hEn]
  | cons j rest ih =>
      intro st en st2 tr hEq st'' hEv
      simp only [applyScan] at hEq ⊢
      by_cases hc : j ≠ a ∧ ¬ optTruthy (g.node j).optional
      · rw [if_pos hc] at hEq ⊢
        rcases hN : updNode g j st with ⟨stJ, eJ, trJ⟩
        rw [hN] at hEq
        cases eJ with
        | some e0 =>
            simp only [] at hEq
            injection hEq with hEn h2
            injection h2 with hSt h2b
            injection h2b with hE h2c
            cases hE
        | none =>
            simp only [] at hEq
            have hNoopJ : NoopAt g stJ j := updNode_noop_post g j st stJ trJ hN
            have hQJ : Quiet g stJ j := (noop_elim g stJ j hNoopJ).1
            by_cases hv : nodeValueRaw (g.node j) (stJ j) = Value.none
            · rw [if_pos hv] at hEq
              injection hEq with hEn h2
              injection h2 with hSt h2b
              have hNoop'' : NoopAt g st'' j := hEv.noopFrame j (hSt ▸ hNoopJ)
              rw [hNoop'']
              simp only []
              have hState : st'' j = stJ j := by
                rw [hEv.quietFrame j (hSt ▸ hQJ), ← hSt]
              rw [hState, if_pos hv, ← hEn]
            · rw [if_neg hv] at hEq
              rcases hR : applyScan g a rest stJ with ⟨en2, stR, eR, trR⟩
              rw [hR] at hEq
              simp only [] at hEq
              injection hEq with hEn h2
              injection h2 with hSt h2b
              injection h2b with hE h2c
              rw [hE, hSt] at hR
              have hEvJ : EvPost g stJ st'' := evPost_trans (evPost_scan hR) hEv
              have hNoop'' : NoopAt g st'' j := hEvJ.noopFrame j hNoopJ
              rw [hNoop'']
              simp only []
              have hState : st'' j = stJ j := hEvJ.quietFrame j hQJ
              rw [hState, if_neg hv]
              rw [ih stJ en2 st2 trR hR st'' hEv]
              rw [← hEn]
              rfl
      · rw [if_neg hc] at hEq ⊢
        exact ih st en st2 tr hEq st'' hEv

/-- Re-running `view()` after its control was brought up to date is a no-op
returning the same view. -/
theorem viewCtl_restart (g : Graph) (i : Nat) (st st2 : St) (tr : List Nat)
    (vw : ViewOut) (hEq : viewCtl g i st = (st2, tr, Except.ok vw)) :
    ∀ st'', EvPost g st2 st'' → viewCtl g i st'' = (st'', [], Except.ok vw) := by
  intro st'' hEv
  simp only [viewCtl] at hEq ⊢
  rcases hN : updNode g i st with ⟨st1, e1, tr1⟩
  rw [hN] at hEq
  cases e1 with
  | some e0 =>
      simp only [] at hEq
      injection hEq with h1 h2
      injection h2 with h2a h2b
      cases h2b
  | none =>
      simp only [] at hEq
      have hNoop1 : NoopAt g st1 i := updNode_noop_post g i st st1 tr1 hN
      have hQ1 : Quiet g st1 i := (noop_elim g st1 i hNoop1).1
      by_cases hA : (g.node i).isApply
      · rw [if_pos hA] at hEq
        rcases hS : applyScan g i (List.range g.size) st1 with ⟨en, stS, eS, trS⟩
        rw [hS] at hEq
        cases eS with
        | some e0 =>
            simp only [] at hEq
            injection hEq with h1 h2
            injection h2 with h2a h2b
            cases h2b
        | none =>
            simp only [] at hEq
            injection hEq with hSt h2
            injection h2 with h2a hvw
            injection hvw with hvw
            rw [hSt] at hS
            have hEv1 : EvPost g st1 st'' := evPost_trans (evPost_scan hS) hEv
            have hNoop'' : NoopAt g st'' i := hEv1.noopFrame i hNoop1
            rw [hNoop'']
            simp only []
            rw [if_pos hA]
            rw [applyScan_restart g i (List.range g.size) st1 en st2 trS hS st'' hEv]
            simp only []
            rw [← hvw]
            rfl
      · rw [if_neg hA] at hEq
        injection hEq with hSt h2
        injection h2 with h2a hvw
        injection hvw with hvw
        have hNoop'' : NoopAt g st'' i := hEv.noopFrame i (hSt ▸ hNoop1)
        rw [hNoop'']
        simp only []
        rw [if_neg hA]
        have hState : st'' i = st1 i := by
          rw [hEv.quietFrame i (hSt ▸ hQ1), ← hSt]
        rw [hState, ← hvw]

/-- Re-running the full view pass after a successful one is a no-op
returning the same views. -/
theorem viewsAll_restart (g : Graph) :
    ∀ order st st2 tr out,
      viewsAll g order st = (st2, tr, Except.ok out) →
      ∀ st'', EvPost g st2 st'' →
        viewsAll g order st'' = (st'', [], Except.ok out) := by
  intro order
  induction order with
  | nil =>
      intro st st2 tr out hEq st'' hEv
      simp only [viewsAll] at hEq ⊢
      injection hEq with hSt h2
      injection h2 with h2a hvw
      injection hvw with hvw
      rw [← hvw]
  | cons i order ih =>
      intro st st2 tr out hEq st'' hEv
      simp only [viewsAll] at hEq ⊢
      rcases hV : viewCtl g i st with ⟨stI, trI, r1⟩
      rw [hV] at hEq
      cases r1 with
      | error e0 =>
          simp only [] at hEq
          injection hEq with h1 h2
          injection h2 with h2a h2b
          cases h2b
      | ok vw =>
          simp only [] at hEq
          rcases hR : viewsAll g order stI with ⟨stR, trR, r2⟩
          rw [hR] at hEq
          simp only [] at hEq
          cases r2 with
          | error e0 =>
              exfalso
              injection hEq with h1 h2
              injection h2 with h2a h2b
              cases h2b
          | ok outR =>
              injection hEq with hSt h2
              injection h2 with h2a hvw
              injection hvw with hvw
              rw [hSt] at hR
              have hEvI : EvPost g stI st'' :=
                evPost_trans (evPost_viewsAll hR) hEv
              rw [viewCtl_restart g i st stI trI vw hV st'' hEvI]
              simp only []
              rw [ih stI st2 trR outR hR st'' hEv]
              simp only []
              rw [← hvw]
              rfl

/-- `Controller.list` is idempotent: feeding no new views into a controller
that just completed a successful `list()` changes nothing, runs no update
function, and returns the same views. -/
theorem listCtl_idem (g : Graph) (views : List (Nat × Value)) (st st' : St)
    (tr : List Nat) (out : List ViewOut)
    (hEq : listCtl g views st = (st', tr, Except.ok out)) :
    listCtl g [] st' = (st', [], Except.ok out) := by
  simp only [listCtl, applyViews] at hEq ⊢
  rcases hA : applyViews g views st with ⟨stA, eA⟩
  rw [hA] at hEq
  cases eA with
  | some e0 =>
      simp only [] at hEq
      injection hEq with h1 h2
      injection (Prod.mk.injEq .. ▸ h2).2
  | none =>
      simp only [] at hEq
      exact viewsAll_restart g (List.range g.size) stA st' tr out hEq st'
        (evPost_refl g st')

/-- Re-running a failed scan from the state it left behind fails again, at
the same control with the same cause, running nothing. -/
theorem applyScan_err_restart (g : Graph) (a : Nat) :
    ∀ order st en st2 err tr,
      applyScan g a order st = (en, st2, Option.some err, tr) →
      applyScan g a order st2 = (en, st2, Option.some err, []) := by
  intro order
  induction order with
  | nil =>
      intro st en st2 err tr hEq
      simp only [applyScan] at hEq
      injection hEq with hEn h2
      injection h2 with hSt h2b
      injection h2b with hE h2c
      cases hE
  | cons j rest ih =>
      intro st en st2 err tr hEq
      simp only [applyScan] at hEq ⊢
      by_cases hc : j ≠ a ∧ ¬ optTruthy (g.node j).optional
      · rw [if_pos hc] at hEq ⊢
        rcases hN : updNode g j st with ⟨stJ, eJ, trJ⟩
        rw [hN] at hEq
        cases eJ with
        | some e0 =>
            simp only [] at hEq
            injection hEq with hEn h2
            injection h2 with hSt h2b
            injection h2b with hE h2c
            injection hE with hE
            rw [hSt, hE] at hN
            rw [updNode_err_restart g j st st2 err trJ hN]
            simp only []
            rw [← hEn]
        | none =>
            simp only [] at hEq
            have hNoopJ : NoopAt g stJ j := updNode_noop_post g j st stJ trJ hN
            have hQJ : Quiet g stJ j := (noop_elim g stJ j hNoopJ).1
            by_cases hv : nodeValueRaw (g.node j) (stJ j) = Value.none
            · rw [if_pos hv] at hEq
              injection hEq with hEn h2
              injection h2 with hSt h2b
              injection h2b with hE h2c
              cases hE
            · rw [if_neg hv] at hEq
              rcases hR : applyScan g a rest stJ with ⟨en2, stR, eR, trR⟩
              rw [hR] at hEq
              simp only [] at hEq
              injection hEq with hEn h2
              injection h2 with hSt h2b
              injection h2b with hE h2c
              rw [hE, hSt] at hR
              have hEvJ : EvPost g stJ st2 := evPost_scan hR
              have hNoop'' : NoopAt g st2 j := hEvJ.noopFrame j hNoopJ
              rw [hNoop'']
              simp only []
              have hState : st2 j = stJ j := hEvJ.quietFrame j hQJ
              rw [hState, if_neg hv]
              rw [ih stJ en2 st2 err trR hR]
              rw [← hEn]
              rfl
      · rw [if_neg hc] at hEq ⊢
        exact ih st en st2 err tr hEq

/-- Re-running `view()` after it raised fails identically, without running
any update function or changing any state. -/
theorem viewCtl_err_restart (g : Graph) (i : Nat) (st st2 : St)
    (tr : List Nat) (e : CtlErr)
    (hEq : viewCtl g i st = (st2, tr, Except.error e)) :
    viewCtl g i st2 = (st2, [], Except.error e) := by
  simp only [viewCtl] at hEq ⊢
  rcases hN : updNode g i st with ⟨st1, e1, tr1⟩
  rw [hN] at hEq
  cases e1 with
  | some e0 =>
      simp only [] at hEq
      injection hEq with hSt h2
      injection h2 with h2a h2b
      injection h2b with h2b
      rw [hSt] at hN
      rw [updNode_err_restart g i st st2 e0 tr1 hN]
      simp only []
      rw [h2b]
  | none =>
      simp only [] at hEq
      have hNoop1 : NoopAt g st1 i := updNode_noop_post g i st st1 tr1 hN
      by_cases hA : (g.node i).isApply
      · rw [if_pos hA] at hEq
        rcases hS : applyScan g i (List.range g.size) st1 with ⟨en, stS, eS, trS⟩
        rw [hS] at hEq
        cases eS with
        | some e0 =>
            simp only [] at hEq
            injection hEq with hSt h2
            injection h2 with h2a h2b
            injection h2b with h2b
            rw [hSt] at hS
            have hEv1 : EvPost g st1 st2 := evPost_scan hS
            have hNoop'' : NoopAt g st2 i := hEv1.noopFrame i hNoop1
            rw [hNoop'']
            simp only []
            rw [if_pos hA]
            rw [applyScan_err_restart g i (List.range g.size) st1 en st2 e0 trS hS]
            simp only []
            rw [h2b]
            rfl
        | none =>
            simp only [] at hEq
            injection hEq with hSt h2
            injection h2 with h2a h2b
            cases h2b
      · rw [if_neg hA] at hEq
        injection hEq with hSt h2
        injection h2 with h2a h2b
        cases h2b

/-- Re-running the view pass after it raised an `UpdateError` fails
identically, without running any update function or changing any state. -/
theorem viewsAll_err_restart (g : Graph) :
    ∀ order st st2 tr e,
      viewsAll g order st = (st2, tr, Except.error e) →
      viewsAll g order st2 = (st2, [], Except.error e) := by
  intro order
  induction order with
  | nil =>
      intro st st2 tr e hEq
      simp only [viewsAll] at hEq
      injection hEq with hSt h2
      injection h2 with h2a h2b
      cases h2b
  | cons i order ih =>
      intro st st2 tr e hEq
      simp only [viewsAll] at hEq ⊢
      rcases hV : viewCtl g i st with ⟨stI, trI, r1⟩
      rw [hV] at hEq
      cases r1 with
      | error e0 =>
          simp only [] at hEq
          injection hEq with hSt h2
          injection h2 with h2a h2b
          injection h2b with h2b
          rw [hSt] at hV
          rw [h2b] at hV
          rw [viewCtl_err_restart g i st st2 trI e hV]
      | ok vw =>
          simp only [] at hEq
          rcases hR : viewsAll g order stI with ⟨stR, trR, r2⟩
          rw [hR] at hEq
          simp only [] at hEq
          cases r2 with
          | error e0 =>
              injection hEq with hSt h2
              injection h2 with h2a h2b
              injection h2b with h2b
              rw [hSt] at hR
              rw [h2b] at hR
              rw [viewCtl_restart g i st stI trI vw hV st2 (evPost_viewsAll hR)]
              simp only []
              rw [ih stI st2 trR e hR]
              rfl
          | ok outR =>
              injection hEq with hSt h2
              injection h2 with h2a h2b
              cases h2b

/-- Errors raised while applying views are validation errors. -/
theorem applyViews_err_validation (g : Graph) :
    ∀ views st st' e, applyViews g views st = (st', Option.some e) →
      ∃ id cause, e = CtlErr.validation id cause := by
  intro views
  induction views with
  | nil =>
      intro st st' e hEq
      simp only [applyViews] at hEq
      injection hEq with h1 h2
      cases h2
  | cons hd rest ih =>
      intro st st' e hEq
      rcases hd with ⟨i, v⟩
      simp only [applyViews, applyCtl] at hEq
      rcases hvd : (g.node i).validator with _ | vd
      · rw [hvd] at hEq
        simp only [] at hEq
        exact ih _ _ _ hEq
      · rw [hvd] at hEq
        simp only [] at hEq
        rcases hres : vd v with c | w
        · rw [hres] at hEq
          simp only [] at hEq
          injection hEq with h1 h2
          injection h2 with h2
          exact ⟨i, c, h2.symm⟩
        · rw [hres] at hEq
          simp only [] at hEq
          exact ih _ _ _ hEq

/-- A `list()` call that raised an `UpdateError`, repeated with no new
views, raises exactly the same error again, running nothing and changing
nothing: the failed control's dirty flag was never cleared. -/
theorem listCtl_err_retry (g : Graph) (views : List (Nat × Value))
    (st st' : St) (tr : List Nat) (k : Nat) (c : String)
    (hEq : listCtl g views st = (st', tr, Except.error (CtlErr.update k c))) :
    listCtl g [] st' = (st', [], Except.error (CtlErr.update k c)) := by
  simp only [listCtl, applyViews] at hEq ⊢
  rcases hA : applyViews g views st with ⟨stA, eA⟩
  rw [hA] at hEq
  cases eA with
  | some e0 =>
      simp only [] at hEq
      injection hEq with h1 h2
      injection h2 with h2a h2b
      injection h2b with h2b
      obtain ⟨id0, cause0, hval⟩ := applyViews_err_validation g views st stA e0 hA
      rw [hval] at h2b
      cases h2b
  | none =>
      simp only [] at hEq
      exact viewsAll_err_restart g (List.range g.size) stA st' tr _ hEq

/-- On a fully resolved controller, the `Apply._view` scan changes nothing
and enables the Apply view exactly when every other non-optional control's
value is non-null. -/
theorem applyScan_settled (g : Graph) (a : Nat) :
    ∀ order st, (∀ j ∈ order, NoopAt g st j) →
      ∃ en, applyScan g a order st = (en, st, Option.none, []) ∧
        (en = true ↔ ∀ j ∈ order, j ≠ a → ¬ optTruthy (g.node j).optional →
          nodeValueRaw (g.node j) (st j) ≠ Value.none) := by
  intro order
  induction order with
  | nil =>
      intro st _
      refine ⟨true, by simp only [applyScan], ?_⟩
      simp
  | cons j rest ih =>
      intro st hN
      obtain ⟨en, hscan, hiff⟩ :=
        ih st (fun q hq => hN q (List.mem_cons_of_mem j hq))
      by_cases hc : j ≠ a ∧ ¬ optTruthy (g.node j).optional
      · by_cases hv : nodeValueRaw (g.node j) (st j) = Value.none
        · refine ⟨false, ?_, ?_⟩
          · simp only [applyScan]
            rw [if_pos hc, hN j (List.mem_cons_self j rest)]
            simp only []
            rw [if_pos hv]
          · constructor
            · intro h; cases h
            · intro hAll
              exact absurd hv (hAll j (List.mem_cons_self j rest) hc.1 hc.2)
        · refine ⟨en, ?_, ?_⟩
          · simp only [applyScan]
            rw [if_pos hc, hN j (List.mem_cons_self j rest)]
            simp only []
            rw [if_neg hv, hscan]
            rfl
          · rw [hiff]
            constructor
            · intro hAll q hq hqa hqo
              rcases List.mem_cons.1 hq with rfl | hq
              · exact hv
              · exact hAll q hq hqa hqo
            · intro hAll q hq hqa hqo
              exact hAll q (List.mem_cons_of_mem j hq) hqa hqo
      · refine ⟨en, ?_, ?_⟩
        · simp only [applyScan]
          rw [if_neg hc, hscan]
        · rw [hiff]
          constructor
          · intro hAll q hq hqa hqo
            rcases List.mem_cons.1 hq with rfl | hq
            · exact absurd ⟨hqa, hqo⟩ hc
            · exact hAll q hq hqa hqo
          · intro hAll q hq hqa hqo
            exact hAll q (List.mem_cons_of_mem j hq) hqa hqo

/-! ### `Controller.__init__` (controls.py:422-446) -/

/-- The construction-time description of one control: its id, whether it is
an `Apply` control, whether it has parents (`is_dependent`), and its
`_require_apply` flag (`True` by default for `TextField` and always for
`FileUpload`; `False` for `ComboBox`, `Slider` and `Apply`). -/
structure CControl where
  id : String
  isApply : Bool
  isDependent : Bool
  requireApply : Bool
  deriving DecidableEq, Repr

/-- `Control.is_apply_required` (controls.py:125-126). -/
def isApplyRequired (c : CControl) : Bool := c.isDependent || c.requireApply

/-- `self.map[control.get_id()] = control` on an insertion-ordered map. -/
def mapInsert : List CControl → CControl → List CControl
  | [], c => [c]
  | d :: rest, c => if d.id = c.id then c :: rest else d :: mapInsert rest c

/-- The loop of `Controller.__init__`: for each control, overwrite
`require_apply` with this control's `is_apply_required()` (the code assigns
instead of accumulating, so after the loop only the last control's answer
remains), track and reject a second explicit `Apply`, and insert the
control into the map; afterwards synthesize an `Apply` control (with a
fresh uuid, modelled by `freshId`) when `require_apply` is still set and no
explicit one was given. -/
def controllerInitLoop (freshId : String) :
    List CControl → List CControl → Bool → Bool → Except String (List CControl)
  | [], m, requireApply, hasApply =>
      if requireApply && !hasApply then
        Except.ok (mapInsert m ⟨freshId, true, false, false⟩)
      else Except.ok m
  | c :: rest, m, _, hasApply =>
      if c.isApply then
        if !hasApply then
          controllerInitLoop freshId rest (mapInsert m c) (isApplyRequired c) true
        else Except.error "Apply must appear only once"
      else
        controllerInitLoop freshId rest (mapInsert m c) (isApplyRequired c) hasApply

/-- `Controller.__init__(controls)`, returning the resulting control map in
insertion order (or the duplicate-Apply error). -/
def controllerInit (freshId : String) (controls : List CControl) :
    Except String (List CControl) :=
  controllerInitLoop freshId controls [] false false

/-! ### `AppExecutor.poll` and the generated execute script
(application/handlers.py) -/

/-- An execution record as persisted to `executions/<id>.json`: the script
writes the keys `status`, `views` and (on finish) `output`. -/
structure ExecRecord where
  status : String
  views : List ViewOut
  output : Option String
  deriving DecidableEq, Repr

/-- The in-memory `Execution` object (application/handlers.py:241-247). -/
structure Execution where
  id : String
  status : String
  views : List ViewOut
  output : Option String
  deriving DecidableEq, Repr

/-- `AppExecutor.poll` (application/handlers.py:298-306): if the record file
for the execution id exists, parse it into an `Execution`; otherwise return
`None`.  The record-file content is modelled by an `Option ExecRecord`. -/
def poll (executionId : String) (file : Option ExecRecord) : Option Execution :=
  match file with
  | Option.some r => Option.some ⟨executionId, r.status, r.views, r.output⟩
  | Option.none => Option.none

/-- Python `str(output)` on the modelled values. -/
def valueStr : Value → String
  | Value.none => "None"
  | Value.int n => toString n
  | Value.str s => s

/-- Re-applying a list of packed views: each view is applied to the control
carrying its id; an `ApplyView` carries no data payload (and `Apply._apply`
ignores it). -/
def viewsToApplies : List ViewOut → List (Nat × Value)
  | [] => []
  | ViewOut.field i d :: rest => (i, d) :: viewsToApplies rest
  | ViewOut.applyV i _ :: rest => (i, Value.none) :: viewsToApplies rest

/-- The generated `execute_script.py` (application/handlers.py:313-389):
load the controller, reconcile it against the views of the persisted record
(if one exists) via `controller.list`, write the refreshed views with
status `running` (apply) or `ready`, and, when applying, run
`controller.apply(func, views)` and overwrite the record with `finished`
and the stringified output.  The script has no exception handler (the code
says `# TODO: Handle failure`): an exception during reconciliation crashes
the subprocess before the first write, one during function invocation
crashes after the `running` record was written.  Returns the final
record-file content and whether the subprocess crashed. -/
def priorViews : Option ExecRecord → List (Nat × Value)
  | Option.some r => viewsToApplies r.views
  | Option.none => []

def executeScript (g : Graph) (ids : List Nat)
    (func : List Value → Except String Value) (applyFlag : Bool)
    (prior : Option ExecRecord) (st : St) : Option ExecRecord × Bool :=
  match listCtl g (priorViews prior) st with
  | (_, _, Except.error _) => (prior, true)
  | (st1, _, Except.ok vs) =>
      let rec1 : ExecRecord :=
        ⟨if applyFlag then "running" else "ready", vs, Option.none⟩
      if applyFlag then
        match ctlApplyFunc g ids func (viewsToApplies vs) st1 with
        | (_, Except.error _) => (Option.some rec1, true)
        | (_, Except.ok out) =>
            (Option.some ⟨"finished", vs, Option.some (valueStr out)⟩, false)
      else (Option.some rec1, false)

/-! ### `AppEncoder._check_optional` and `_split_type` (app/handlers.py) -/

/-- `AppEncoder._check_optional` (app/handlers.py:129-136, identical in
application/handlers.py:152-159): if the control's tri-state `optional` is
unset, adopt the parameter's optionality.  Otherwise the control keeps its
declared value, and the encoder raises only when
`is_optional < value.optional` on Python booleans — i.e. the parameter is
NOT optional while the control IS declared optional — and strict type
checking is enabled.  Returns the control's resulting `optional` field. -/
def checkOptional (strict : Bool) (isOptional : Bool)
    (ctlOptional : Option Bool) : Except String (Option Bool) :=
  match ctlOptional with
  | Option.none => Except.ok (Option.some isOptional)
  | Option.some b =>
      if !isOptional && b then
        if strict then
          Except.error "Parameter is not optional but the control is"
        else Except.ok (Option.some b)
      else Except.ok (Option.some b)

/-- Is `lit` a prefix of `cs`? -/
def litAt : List Char → List Char → Bool
  | [], _ => true
  | _ :: _, [] => false
  | l :: ls, c :: cs => l == c && litAt ls cs

/-- After `typing.Union[`: one or more characters (each matched by the
regex `.`, i.e. anything but a newline) followed by the literal
`, NoneType]`. -/
def unionBody : List Char → Bool
  | [] => false
  | c :: cs =>
      (c != '\n') && (litAt (String.toList ", NoneType]") cs || unionBody cs)

/-- The regex `typing.Union\[(.+), NoneType]` matches at the start of
`cs`: the literal `typing`, any non-newline character (the unescaped `.`),
the literal `Union[`, then `unionBody`. -/
def unionNoneMatchAt (cs : List Char) : Bool :=
  litAt (String.toList "typing") cs &&
    (match cs.drop 6 with
     | [] => false
     | c :: cs2 =>
         (c != '\n') && litAt (String.toList "Union[") cs2 &&
           unionBody (cs2.drop 6))

/-- `re.search`: the pattern matches at some position of the string. -/
def searchUnionNone : List Char → Bool
  | [] => false
  | c :: cs => unionNoneMatchAt (c :: cs) || searchUnionNone cs

/-- The first component of `_split_type` (app/handlers.py:144-146): a
parameter annotation counts as optional iff
`re.search(r"typing.Union\[(.+), NoneType]", tpe)` succeeds on its string
form. -/
def splitTypeIsOptional (s : String) : Bool := searchUnionNone s.toList

/-- Decimal digits to a number, left to right; `none` on a non-digit. -/
def digitsAux : List Char → Nat → Option Nat
  | [], acc => Option.some acc
  | c :: cs, acc =>
      if c.isDigit then digitsAux cs (acc * 10 + (c.toNat - 48))
      else Option.none

/-- Python `int(s)` on a string: an optional minus sign followed by one or
more decimal digits; anything else raises `ValueError`. -/
def pyParseInt (s : String) : Option Int :=
  match s.toList with
  | [] => Option.none
  | '-' :: cs =>
      if cs.isEmpty then Option.none
      else (digitsAux cs 0).map (fun n => -(n : Int))
  | cs => (digitsAux cs 0).map (fun n => (n : Int))

/-- `int_validator()`: `int(x)` on the view's data, raising on `None` and
on non-numeric strings. -/
def intValidator : Value → Except String Value
  | Value.str s =>
      match pyParseInt s with
      | Option.some n => Except.ok (Value.int n)
      | Option.none => Except.error "invalid literal for int() with base 10"
  | _ => Except.error "int() argument must be a string"

/-! ### Concrete graph construction -/

/-- Build a graph from a node list whose parent edges point strictly
backwards (checked only below the length; out-of-range indices read the
parentless `defaultNode`). -/
def mkGraph (nodes : List Node)
    (h : ∀ i, i < nodes.length →
      ∀ j ∈ (nodes.getD i defaultNode).parents, j < i) : Graph :=
  ⟨nodes, fun i j hj => by
    by_cases hi : i < nodes.length
    · exact h i hi j hj
    · rw [List.getD_eq_default _ _ (Nat.le_of_not_lt hi)] at hj
      exact absurd hj (by simp [defaultNode])⟩

/-- The state of a freshly constructed control set: given data, no
validated value, no pending view, dirty (as in `Control.__init__`). -/
def stInit (f : Nat → Value) : St :=
  fun i => ⟨f i, Value.none, Option.none, true⟩

theorem consume_congr (g g' : Graph) (i : Nat) (st : St)
    (hA : (g.node i).isApply = (g'.node i).isApply) :
    consume g i st = consume g' i st := by
  unfold consume
  rw [hA]

/-- `_update` never reads the bound validator: two graphs that agree on
parents, update functions and control kinds — and may differ arbitrarily in
their validators (and `optional` flags) — have identical `_update`
behaviour on every control and state. -/
theorem updNode_validator_irrel (g g' : Graph)
    (hsame : ∀ k, (g.node k).parents = (g'.node k).parents ∧
      (g.node k).updateFunc = (g'.node k).updateFunc ∧
      (g.node k).isApply = (g'.node k).isApply) :
    ∀ i st, updNode g i st = updNode g' i st := by
  intro i
  induction i using Nat.strong_induction_on with
  | _ i IH =>
    have hlist : ∀ ps (h1 h2 : ∀ j ∈ ps, j < i) st,
        updList g i ps h1 st = updList g' i ps h2 st := by
      intro ps
      induction ps with
      | nil => intro h1 h2 st; simp only [updList]
      | cons p rest ihp =>
          intro h1 h2 st
          simp only [updList]
          rw [← IH p (h1 p (List.mem_cons_self p rest)) st]
          rcases hN : updNode g p st with ⟨stp, ep, trp⟩
          cases ep with
          | some e0 => simp only []
          | none =>
              simp only []
              rw [ihp (fun j hj => h1 j (List.mem_cons_of_mem p hj))
                  (fun j hj => h2 j (List.mem_cons_of_mem p hj)) stp]
    have hlist' : ∀ ps ps', ps = ps' →
        ∀ (h1 : ∀ j ∈ ps, j < i) (h2 : ∀ j ∈ ps', j < i) st,
          updList g i ps h1 st = updList g' i ps' h2 st := by
      rintro ps ps' rfl h1 h2 st
      exact hlist ps h1 h2 st
    intro st
    obtain ⟨hpar, hfn, hap⟩ := hsame i
    have hFn' : (g'.node i).updateFunc = (g.node i).updateFunc := hfn.symm
    simp only [updNode]
    rw [consume_congr g g' i st hap, hFn']
    rcases hFn : (g.node i).updateFunc with _ | f
    · simp only []
    · simp only []
      rw [hlist' (g.node i).parents (g'.node i).parents hpar
          (fun j hj => g.wf i j hj) (fun j hj => g'.wf i j hj) (consume g' i st)]
      rcases hL : updList g' i (g'.node i).parents (fun j hj => g'.wf i j hj)
          (consume g' i st) with ⟨st2, e2, tr2⟩
      cases e2 with
      | some e0 => simp only []
      | none =>
          simp only []
          rw [hpar]

/-- After a successful `view()`, the control is fully resolved. -/
theorem viewCtl_noop_post (g : Graph) (i : Nat) (st st1 : St) (tr : List Nat)
    (vw : ViewOut) (hEq : viewCtl g i st = (st1, tr, Except.ok vw)) :
    NoopAt g st1 i := by
  simp only [viewCtl] at hEq
  rcases hN : updNode g i st with ⟨stU, eU, trU⟩
  rw [hN] at hEq
  cases eU with
  | some e0 =>
      simp only [] at hEq
      injection hEq with h1 h2
      injection h2 with h2a h2b
      cases h2b
  | none =>
      simp only [] at hEq
      have hNoop : NoopAt g stU i := updNode_noop_post g i st stU trU hN
      by_cases hA : (g.node i).isApply
      · rw [if_pos hA] at hEq
        rcases hS : applyScan g i (List.range g.size) stU with ⟨en, stS, eS, trS⟩
        rw [hS] at hEq
        cases eS with
        | some e0 =>
            simp only [] at hEq
            injection hEq with h1 h2
            injection h2 with h2a h2b
            cases h2b
        | none =>
            simp only [] at hEq
            injection hEq with hSt h2
            rw [← hSt]
            exact (evPost_scan hS).noopFrame i hNoop
      · rw [if_neg hA] at hEq
        injection hEq with hSt h2
        rw [← hSt]
        exact hNoop

/-- After a successful view pass, every visited control is fully resolved. -/
theorem viewsAll_noop_post (g : Graph) :
    ∀ order st st2 tr out,
      viewsAll g order st = (st2, tr, Except.ok out) →
      ∀ j ∈ order, NoopAt g st2 j := by
  intro order
  induction order with
  | nil => intro st st2 tr out _ j hj; exact absurd hj (List.not_mem_nil j)
  | cons i order ih =>
      intro st st2 tr out hEq j hj
      simp only [viewsAll] at hEq
      rcases hV : viewCtl g i st with ⟨stI, trI, r1⟩
      rw [hV] at hEq
      cases r1 with
      | error e0 =>
          simp only [] at hEq
          injection hEq with h1 h2
          injection h2 with h2a h2b
          cases h2b
      | ok vw =>
          simp only [] at hEq
          rcases hR : viewsAll g order stI with ⟨stR, trR, r2⟩
          rw [hR] at hEq
          simp only [] at hEq
          cases r2 with
          | error e0 =>
              injection hEq with h1 h2
              injection h2 with h2a h2b
              cases h2b
          | ok outR =>
              injection hEq with hSt h2
              rw [hSt] at hR
              rcases List.mem_cons.1 hj with rfl | hj
              · exact (evPost_viewsAll hR).noopFrame j
                  (viewCtl_noop_post g j st stI trI vw hV)
              · exact ih stI st2 trR outR hR j hj

/-- After a successful `Controller.list`, every control of the controller is
fully resolved. -/
theorem listCtl_noop_post (g : Graph) (views : List (Nat × Value))
    (st st' : St) (tr : List Nat) (out : List ViewOut)
    (hEq : listCtl g views st = (st', tr, Except.ok out)) :
    ∀ j ∈ List.range g.size, NoopAt g st' j := by
  simp only [listCtl] at hEq
  rcases hA : applyViews g views st with ⟨stA, eA⟩
  rw [hA] at hEq
  cases eA with
  | some e0 =>
      simp only [] at hEq
      injection hEq with h1 h2
      injection h2 with h2a h2b
      cases h2b
  | none =>
      simp only [] at hEq
      exact viewsAll_noop_post g (List.range g.size) stA st' tr out hEq

end Dstack

namespace Dstack

/-! ### Concrete fixtures for the claims -/

/-- A plain `TextField` control: no parents, no update function. -/
def tfNode : Node := defaultNode

/-- A `TextField` control with parents and an update function. -/
def fnNode (ps : List Nat) (f : Value → List Value → Except String Value) :
    Node :=
  { defaultNode with parents := ps, updateFunc := Option.some f }

/-- The `Apply` control (`optional=False`). -/
def applyNode : Node :=
  { defaultNode with isApply := true, optional := Option.some false }

/-- A `TextField` bound to `int_validator()`. -/
def tfIntNode : Node :=
  { defaultNode with validator := Option.some intValidator }

/-- `c1 = TextField("10"); c2 = TextField(depends=c1, data=update)`. -/
def gChain : Graph :=
  mkGraph [tfNode, fnNode [0] (fun _ ps => Except.ok (ps.headD Value.none))]
    (by decide)

def stChain : St :=
  stInit (fun i => if i = 0 then Value.str "10" else Value.none)

/-- The state after `_update` of the dependent control of `gChain`. -/
def stChain' : St :=
  setSt stChain 1 ⟨Value.str "10", Value.none, Option.none, false⟩

/-- The diamond A → B, A → C, {B, C} → D of the spec's §8 property. -/
def gDia : Graph :=
  mkGraph
    [ fnNode [] (fun _ _ => Except.ok (Value.str "A")),
      fnNode [0] (fun _ _ => Except.ok (Value.str "B")),
      fnNode [0] (fun _ _ => Except.ok (Value.str "C")),
      fnNode [1, 2] (fun _ _ => Except.ok (Value.str "D")) ]
    (by decide)

def stDia : St := stInit (fun _ => Value.none)

def stDia1 : St := (listCtl gDia [] stDia).1

/-- A dependent control whose update function always raises. -/
def gErr : Graph :=
  mkGraph [tfNode, fnNode [0] (fun _ _ => Except.error "boom")] (by decide)

def stErr : St :=
  stInit (fun i => if i = 0 then Value.str "10" else Value.none)

/-- A single `TextField(validator=int_validator())`. -/
def gVal : Graph := mkGraph [tfIntNode] (by decide)

def stVal : St := stInit (fun _ => Value.none)

/-- Two non-optional text fields plus the synthesized Apply control. -/
def g6 : Graph := mkGraph [tfNode, tfNode, applyNode] (by decide)

def st06 : St := stInit (fun _ => Value.none)

def st6a : St := (listCtl g6 [] st06).1

def st6b : St := (listCtl g6 [(0, Value.str "10")] st6a).1

def st6c : St := (listCtl g6 [(1, Value.str "5")] st6b).1

/-- A single plain text field, for the execute-script fixture. -/
def g8 : Graph := mkGraph [tfNode] (by decide)

def st08 : St := stInit (fun _ => Value.str "10")

def rec8 : ExecRecord :=
  ⟨"ready", [ViewOut.field 0 (Value.str "10")], Option.none⟩

/-- A target function that raises. -/
def funcBoom : List Value → Except String Value :=
  fun _ => Except.error "boom"

/-- `TextField("10")`: not dependent, `require_apply` defaults to `True`. -/
def cTextField : CControl := ⟨"c1", false, false, true⟩

/-- `ComboBox(["a", "b"])`: not dependent, `require_apply` is `False`. -/
def cComboBox : CControl := ⟨"c2", false, false, false⟩

end Dstack

namespace Dstack

/-! ### The claims -/

/-- C1: the spec claims an Apply control is synthesized iff at least one
control has parents or is not finite-state.  The loop in
`Controller.__init__` (controls.py:429-430) instead overwrites
`require_apply` with each control's `is_apply_required()` — a dead initial
`require_apply = False` followed by plain assignment — so only the LAST
control's answer survives.  For `Controller([TextField("10"),
ComboBox(["a","b"])])` the text field requires apply
(`require_apply=True` by default), yet no Apply control ends up in the map;
reversing the list makes one appear. -/
theorem c1_apply_synthesis_follows_last_control :
    isApplyRequired cTextField = true
    ∧ controllerInit "uuid-1" [cTextField, cComboBox] =
        Except.ok [cTextField, cComboBox]
    ∧ ([cTextField, cComboBox].any (fun c => c.isApply)) = false
    ∧ controllerInit "uuid-1" [cComboBox, cTextField] =
        Except.ok [cComboBox, cTextField, ⟨"uuid-1", true, false, false⟩] :=
  ⟨rfl, rfl, rfl, rfl⟩

/-- C7 (counterexample): for an execution id with no persisted record file,
`AppExecutor.poll` returns `None` — it does not return a synthetic
`SCHEDULED` execution record. -/
theorem c7_poll_counterexample :
    poll "e-1" Option.none = Option.none
    ∧ poll "e-1" Option.none ≠
        Option.some (Execution.mk "e-1" "scheduled" [] Option.none) :=
  ⟨rfl, fun h => Option.noConfusion h⟩

/-- C7 (amended): `poll` returns `None` when the record file is absent, and
an `Execution` populated from the record (id, status, views, output) when
it exists. -/
theorem c7_poll_absent_returns_none :
    (∀ id, poll id Option.none = Option.none)
    ∧ (∀ id r, poll id (Option.some r) =
        Option.some ⟨id, r.status, r.views, r.output⟩) :=
  ⟨fun _ => rfl, fun _ _ => rfl⟩

/-- C9 (counterexample): with strict type checking on, a non-optional
control bound to an optional parameter does NOT make the encoder fail
(`is_optional < value.optional` is `True < False`, i.e. `False`); and with
strict checking off, an optional control on a non-optional parameter keeps
`optional=True` — the stricter value is not adopted. -/
theorem c9_check_optional_counterexample :
    checkOptional true true (Option.some false) = Except.ok (Option.some false)
    ∧ checkOptional false false (Option.some true) =
        Except.ok (Option.some true) :=
  ⟨rfl, rfl⟩

/-- C9 (amended): an unset control `optional` adopts the parameter's
optionality (a `typing.Union[..., NoneType]` annotation counts as
optional); a set one is kept unchanged, and the encoder fails exactly when
the parameter is non-optional, the control is declared optional, and strict
type checking is enabled. -/
theorem c9_check_optional_characterization :
    (∀ strict isOpt, checkOptional strict isOpt Option.none =
        Except.ok (Option.some isOpt))
    ∧ (∀ strict isOpt b, checkOptional strict isOpt (Option.some b) =
        if !isOpt && b && strict then
          Except.error "Parameter is not optional but the control is"
        else Except.ok (Option.some b))
    ∧ splitTypeIsOptional "typing.Union[int, NoneType]" = true
    ∧ splitTypeIsOptional "typing.Union[str, NoneType]" = true
    ∧ splitTypeIsOptional "<class 'int'>" = false
    ∧ splitTypeIsOptional "<class 'str'>" = false := by
  refine ⟨fun strict isOpt => rfl, ?_, ?_, ?_, ?_, ?_⟩
  · intro strict isOpt b
    cases strict <;> cases isOpt <;> cases b <;> rfl
  all_goals decide

end Dstack

namespace Dstack

/-- C2: when `_update` succeeds on a control, (a) if the control has an
update function, every parent is fully resolved (`_update` on it is a
no-op) in the resulting state — every parent's `_update()` ran to
completion before the control's own update function was invoked; (b) in
the trace of update functions that ran, the control's own run, if any, is
last; (c) no control's update function ran more than once in the whole
call tree — in a diamond dependency, the shared ancestor's dirty flag
guards re-entry. -/
theorem c2_parents_update_before_own_update (g : Graph) (i : Nat)
    (st st' : St) (tr : List Nat)
    (hEq : updNode g i st = (st', Option.none, tr)) :
    ((g.node i).updateFunc.isSome →
      ∀ j ∈ (g.node i).parents, NoopAt g st' j)
    ∧ (i ∈ tr → tr.getLast? = Option.some i)
    ∧ tr.Nodup := by
  refine ⟨?_, ?_, (updNode_post g i st st' _ tr hEq).trNodup⟩
  · intro hSome
    exact (noop_elim g st' i (updNode_noop_post g i st st' tr hEq)).2 hSome
  · have hPar : ∀ k, (∃ p ∈ (g.node i).parents, k ≤ p) → k < i :=
      fun k ⟨p, hp, hkp⟩ => lt_of_le_of_lt hkp (g.wf i p hp)
    have := updNode_cases g i st
      (fun r => r = (st', Option.none, tr) →
        i ∈ tr → tr.getLast? = Option.some i)
      (fun hFn h => by
        injection h with h1 h23
        injection h23 with h2 h3
        intro hmem
        rw [← h3] at hmem
        exact absurd hmem (List.not_mem_nil i))
      (fun f st2 e0 tr2 hFn hL h => by
        injection h with h1 h23
        injection h23 with h2 h3
        cases h2)
      (fun f st2 tr2 hFn hL hd h => by
        injection h with h1 h23
        injection h23 with h2 h3
        intro hmem
        exfalso
        rw [← h3] at hmem
        have := (updList_post g i _ _ _ _ _ _ hL).trOk i hmem
        exact absurd (hPar i this) (lt_irrefl i))
      (fun f st2 tr2 v hFn hL hd hf h => by
        injection h with h1 h23
        injection h23 with h2 h3
        intro _
        rw [← h3]
        exact List.getLast?_concat _)
      (fun f st2 tr2 c hFn hL hd hf h => by
        injection h with h1 h23
        injection h23 with h2 h3
        cases h2)
    exact this hEq

theorem c2_parents_update_before_own_update_witness :
    (((gChain.node 1).updateFunc.isSome →
        ∀ j ∈ (gChain.node 1).parents, NoopAt gChain stChain' j)
      ∧ ((1 : Nat) ∈ ([1] : List Nat) →
          ([1] : List Nat).getLast? = Option.some 1)
      ∧ ([1] : List Nat).Nodup) :=
  c2_parents_update_before_own_update gChain 1 stChain stChain' [1]
    (by simp [updNode, updList, consume, gChain, mkGraph, stChain, stChain',
      stInit, tfNode, fnNode, defaultNode, Graph.node, setSt])

/-- C4: `Control.apply` validates the view before storing it: on a
validator failure it raises `ValidationError` carrying the owning control's
id and the wrapped cause and leaves the state exactly unchanged (so a
subsequent `value()` returns what it returned before); on success it stores
the converted value and buffers the view.  And `_update` never consults the
validator: two graphs differing only in their validators (same parents,
update functions and control kinds) have identical `_update` behaviour. -/
theorem c4_validate_on_apply_never_on_update :
    (∀ g i v st vd c, (g.node i).validator = Option.some vd →
        vd v = Except.error c →
        applyCtl g i v st = (st, Option.some (CtlErr.validation i c)))
    ∧ (∀ g i v st vd w, (g.node i).validator = Option.some vd →
        vd v = Except.ok w →
        applyCtl g i v st =
          (setSt st i { st i with validated := w, pending := Option.some v },
           Option.none))
    ∧ (∀ g g', (∀ k, (g.node k).parents = (g'.node k).parents ∧
          (g.node k).updateFunc = (g'.node k).updateFunc ∧
          (g.node k).isApply = (g'.node k).isApply) →
        ∀ i st, updNode g i st = updNode g' i st) := by
  refine ⟨?_, ?_, fun g g' hsame => updNode_validator_irrel g g' hsame⟩
  · intro g i v st vd c hvd herr
    simp [applyCtl, hvd, herr]
  · intro g i v st vd w hvd hok
    simp [applyCtl, hvd, hok]

theorem c4_validate_on_apply_never_on_update_witness :
    applyCtl gVal 0 (Value.str "abc") stVal =
      (stVal, Option.some
        (CtlErr.validation 0 "invalid literal for int() with base 10")) :=
  c4_validate_on_apply_never_on_update.1 gVal 0 (Value.str "abc") stVal
    intValidator "invalid literal for int() with base 10"
    (by simp [gVal, mkGraph, Graph.node, tfIntNode, defaultNode])
    (by rfl)

/-- C5: when an update function raises, `_update` raises an `UpdateError`
carrying that control's id and the wrapped cause, and that control's dirty
flag is still set in the resulting state; re-running `_update` from that
state fails identically (the function is retried), and a subsequent
`Controller.list` with no new views raises the same `UpdateError` again. -/
theorem c5_update_error_and_retry :
    (∀ g i st st' k c tr,
        updNode g i st = (st', Option.some ⟨k, c⟩, tr) →
        (∃ f, (g.node k).updateFunc = Option.some f ∧
          f ((st' k).data) ((g.node k).parents.map fun j => (st' j).data) =
            Except.error c ∧
          (st' k).dirty = true)
        ∧ updNode g i st' = (st', Option.some ⟨k, c⟩, []))
    ∧ (∀ g views st st' tr k c,
        listCtl g views st = (st', tr, Except.error (CtlErr.update k c)) →
        listCtl g [] st' = (st', [], Except.error (CtlErr.update k c))) := by
  constructor
  · intro g i st st' k c tr hEq
    constructor
    · obtain ⟨f, hf1, hf2, hf3, _⟩ :=
        (updNode_post g i st st' _ tr hEq).errSpec k c rfl
      exact ⟨f, hf1, hf2, hf3⟩
    · exact updNode_err_restart g i st st' ⟨k, c⟩ tr hEq
  · intro g views st st' tr k c hEq
    exact listCtl_err_retry g views st st' tr k c hEq

theorem c5_update_error_and_retry_witness :
    ((∃ f, (gErr.node 1).updateFunc = Option.some f ∧
        f ((stErr 1).data) ((gErr.node 1).parents.map fun j => (stErr j).data) =
          Except.error "boom" ∧
        (stErr 1).dirty = true)
      ∧ updNode gErr 1 stErr = (stErr, Option.some ⟨1, "boom"⟩, []))
    ∧ listCtl gErr [] stErr =
        (stErr, [], Except.error (CtlErr.update 1 "boom")) :=
  ⟨c5_update_error_and_retry.1 gErr 1 stErr stErr 1 "boom" []
      (by simp [updNode, updList, consume, gErr, mkGraph, stErr, stInit,
        tfNode, fnNode, defaultNode, Graph.node, setSt]),
   c5_update_error_and_retry.2 gErr [] stErr stErr [] 1 "boom"
      (by simp [listCtl, applyViews, viewsAll, viewCtl, applyScan, updNode,
        updList, consume, gErr, mkGraph, stErr, stInit, tfNode, fnNode,
        defaultNode, Graph.node, Graph.size, setSt, List.range,
        List.range.loop, Except.map])⟩

/-- C10: for a `TextField` with a validator, a successful `apply(view)`
stores the converted value in `_validated_value` and buffers the view;
after `_update` consumes the buffer, `value()` returns
`_validated_value or data` under Python truthiness — the converted value
only when it is truthy, else the raw view data.  In particular parsing the
string "0" yields `int 0`, which is falsy, so `value()` returns the raw
string "0" instead of the parsed integer. -/
theorem c10_falsy_validated_falls_back :
    (∀ g i st v vd w, (g.node i).validator = Option.some vd →
        (g.node i).isApply = false → (g.node i).updateFunc = Option.none →
        vd v = Except.ok w →
        applyCtl g i v st =
          (setSt st i { st i with validated := w, pending := Option.some v },
           Option.none)
        ∧ updNode g i
            (setSt st i { st i with validated := w, pending := Option.some v }) =
          (setSt (setSt st i { st i with validated := w, pending := Option.some v })
            i ⟨v, w, Option.none, true⟩, Option.none, [])
        ∧ nodeValueRaw (g.node i) (⟨v, w, Option.none, true⟩ : NodeState) =
            (if w.truthy then w else v))
    ∧ intValidator (Value.str "0") = Except.ok (Value.int 0)
    ∧ (Value.int 0).truthy = false := by
  refine ⟨?_, by rfl, by rfl⟩
  intro g i st v vd w hvd hap hfn hok
  refine ⟨by simp [applyCtl, hvd, hok], ?_, by simp [nodeValueRaw, hap, pyOr]⟩
  simp only [updNode, consume, setSt_same, hfn, hap]
  simp

theorem c10_falsy_validated_falls_back_witness :
    (applyCtl gVal 0 (Value.str "0") stVal =
      (setSt stVal 0
        { stVal 0 with validated := Value.int 0,
                       pending := Option.some (Value.str "0") },
       Option.none)
    ∧ updNode gVal 0
        (setSt stVal 0
          { stVal 0 with validated := Value.int 0,
                         pending := Option.some (Value.str "0") }) =
      (setSt (setSt stVal 0
          { stVal 0 with validated := Value.int 0,
                         pending := Option.some (Value.str "0") })
        0 ⟨Value.str "0", Value.int 0, Option.none, true⟩, Option.none, [])
    ∧ nodeValueRaw (gVal.node 0)
        (⟨Value.str "0", Value.int 0, Option.none, true⟩ : NodeState) =
        (if (Value.int 0).truthy then Value.int 0 else Value.str "0")) :=
  c10_falsy_validated_falls_back.1 gVal 0 stVal (Value.str "0") intValidator
    (Value.int 0)
    (by simp [gVal, mkGraph, Graph.node, tfIntNode, defaultNode])
    (by simp [gVal, mkGraph, Graph.node, tfIntNode, defaultNode])
    (by simp [gVal, mkGraph, Graph.node, tfIntNode, defaultNode])
    (by rfl)

end Dstack

namespace Dstack

/-- C3: memoization via the dirty flag.  Generally, a successful
`Controller.list` followed by another `list()` with no new views is a
complete no-op: same state, same views, and not a single update function
runs.  On the diamond A→{B,C}→D: the first `list()` runs each update
function exactly once — A's exactly once although it is reachable through
both B and C —, a repeated `list()` runs none, and re-applying a view to A
re-runs exactly A's update function (B, C, D are not re-computed merely
because their parent's data changed). -/
theorem c3_memoization_dirty_flag :
    (∀ g views st st' tr out,
        listCtl g views st = (st', tr, Except.ok out) →
        listCtl g [] st' = (st', [], Except.ok out))
    ∧ (listCtl gDia [] stDia).2.1 = [0, 1, 2, 3]
    ∧ (listCtl gDia [] stDia1).2.1 = []
    ∧ (listCtl gDia [(0, Value.str "X")] stDia1).2.1 = [0] := by
  refine ⟨fun g views st st' tr out h => listCtl_idem g views st st' tr out h,
    ?_, ?_, ?_⟩
  all_goals
    simp [listCtl, applyViews, applyCtl, viewsAll, viewCtl, applyScan,
      updNode, updList, consume, setSt, nodeValueRaw, pyOr, optTruthy,
      Value.truthy, Graph.node, Graph.size, mkGraph, stInit, defaultNode,
      tfNode, fnNode, applyNode, List.range, List.range.loop, Except.map,
      gDia, stDia, stDia1]

theorem c3_memoization_dirty_flag_witness :
    listCtl gDia [] stDia1 =
      (stDia1, [], Except.ok
        [ViewOut.field 0 (Value.str "A"), ViewOut.field 1 (Value.str "B"),
         ViewOut.field 2 (Value.str "C"), ViewOut.field 3 (Value.str "D")]) :=
  c3_memoization_dirty_flag.1 gDia [] stDia stDia1 [0, 1, 2, 3]
    [ViewOut.field 0 (Value.str "A"), ViewOut.field 1 (Value.str "B"),
     ViewOut.field 2 (Value.str "C"), ViewOut.field 3 (Value.str "D")]
    (by simp [listCtl, applyViews, applyCtl, viewsAll, viewCtl, applyScan,
      updNode, updList, consume, setSt, nodeValueRaw, pyOr, optTruthy,
      Value.truthy, Graph.node, Graph.size, mkGraph, stInit, defaultNode,
      tfNode, fnNode, applyNode, List.range, List.range.loop, Except.map,
      gDia, stDia, stDia1])

/-- C6: on a fully resolved controller, the Apply control's view is enabled
iff every other control that is not marked optional has a non-null
`value()` (the scan changes nothing on a resolved controller).  Concretely,
with two non-optional text fields and the Apply control: `list()` shows
Apply disabled while both values are null, still disabled when only the
first field has been given a value, and enabled once both are non-null. -/
theorem c6_apply_enabled_iff_values_nonnull :
    (∀ g a st, (∀ j ∈ List.range g.size, NoopAt g st j) →
        ∃ en, applyScan g a (List.range g.size) st =
            (en, st, Option.none, []) ∧
          (en = true ↔ ∀ j ∈ List.range g.size, j ≠ a →
            ¬ optTruthy (g.node j).optional →
            nodeValueRaw (g.node j) (st j) ≠ Value.none))
    ∧ (listCtl g6 [] st06).2.2 =
        Except.ok [ViewOut.field 0 Value.none, ViewOut.field 1 Value.none,
                   ViewOut.applyV 2 false]
    ∧ (listCtl g6 [(0, Value.str "10")] st6a).2.2 =
        Except.ok [ViewOut.field 0 (Value.str "10"),
                   ViewOut.field 1 Value.none, ViewOut.applyV 2 false]
    ∧ (listCtl g6 [(1, Value.str "5")] st6b).2.2 =
        Except.ok [ViewOut.field 0 (Value.str "10"),
                   ViewOut.field 1 (Value.str "5"), ViewOut.applyV 2 true] := by
  refine ⟨fun g a st h => applyScan_settled g a (List.range g.size) st h,
    ?_, ?_, ?_⟩
  all_goals
    simp [listCtl, applyViews, applyCtl, viewsAll, viewCtl, applyScan,
      updNode, updList, consume, setSt, nodeValueRaw, pyOr, optTruthy,
      Value.truthy, Graph.node, Graph.size, mkGraph, stInit, defaultNode,
      tfNode, fnNode, applyNode, List.range, List.range.loop, Except.map,
      g6, st06, st6a, st6b]

theorem c6_apply_enabled_iff_values_nonnull_witness :
    ∃ en, applyScan g6 2 (List.range g6.size) st6c =
        (en, st6c, Option.none, []) ∧
      (en = true ↔ ∀ j ∈ List.range g6.size, j ≠ 2 →
        ¬ optTruthy (g6.node j).optional →
        nodeValueRaw (g6.node j) (st6c j) ≠ Value.none) :=
  c6_apply_enabled_iff_values_nonnull.1 g6 2 st6c
    (listCtl_noop_post g6 [(1, Value.str "5")] st6b st6c []
      [ViewOut.field 0 (Value.str "10"), ViewOut.field 1 (Value.str "5"),
       ViewOut.applyV 2 true]
      (by simp [listCtl, applyViews, applyCtl, viewsAll, viewCtl, applyScan,
        updNode, updList, consume, setSt, nodeValueRaw, pyOr, optTruthy,
        Value.truthy, Graph.node, Graph.size, mkGraph, stInit, defaultNode,
        tfNode, fnNode, applyNode, List.range, List.range.loop, Except.map,
        g6, st06, st6a, st6b, st6c]))

/-- C8: the generated execute script has no top-level exception handler
(its own text says `# TODO: Handle failure`).  An exception during
control-graph reconciliation crashes the subprocess before anything is
written, leaving the record file unchanged; an exception during function
invocation crashes after the `running` record was written, leaving the
record at the non-terminal status "running" with no output — no `FAILED`
record with a traceback is ever produced (the record has no logs field at
all). -/
theorem c8_failure_crashes_subprocess :
    (∀ g ids func prior st stE trE e,
        listCtl g (priorViews prior) st = (stE, trE, Except.error e) →
        executeScript g ids func true prior st = (prior, true))
    ∧ (∀ g ids func prior st st1 tr vs st2 e,
        listCtl g (priorViews prior) st = (st1, tr, Except.ok vs) →
        ctlApplyFunc g ids func (viewsToApplies vs) st1 =
          (st2, Except.error e) →
        executeScript g ids func true prior st =
          (Option.some ⟨"running", vs, Option.none⟩, true)) := by
  constructor
  · intro g ids func prior st stE trE e h
    simp only [executeScript]
    rw [h]
  · intro g ids func prior st st1 tr vs st2 e h1 h2
    simp only [executeScript]
    rw [h1]
    simp only [if_true]
    rw [h2]

/-- The state of the execute-script fixture after reconciliation. -/
def st8a : St :=
  setSt (setSt st08 0
      ⟨Value.str "10", Value.none, Option.some (Value.str "10"), true⟩) 0
    ⟨Value.str "10", Value.none, Option.none, true⟩

/-- The state of the execute-script fixture when the target function
raises. -/
def st8b : St :=
  setSt (setSt st8a 0
      ⟨Value.str "10", Value.none, Option.some (Value.str "10"), true⟩) 0
    ⟨Value.str "10", Value.none, Option.none, true⟩

theorem c8_failure_crashes_subprocess_witness :
    executeScript g8 [0] funcBoom true (Option.some rec8) st08 =
      (Option.some ⟨"running", [ViewOut.field 0 (Value.str "10")],
        Option.none⟩, true) :=
  c8_failure_crashes_subprocess.2 g8 [0] funcBoom (Option.some rec8) st08
    st8a []
    [ViewOut.field 0 (Value.str "10")]
    st8b
    (RunErr.fn "boom")
    (by simp [listCtl, applyViews, applyCtl, viewsAll, viewCtl, applyScan,
      updNode, updList, consume, setSt, nodeValueRaw, pyOr, optTruthy,
      Value.truthy, Graph.node, Graph.size, mkGraph, stInit, defaultNode,
      tfNode, List.range, List.range.loop, Except.map, g8, st08, rec8,
      priorViews, viewsToApplies, st8a])
    (by simp [ctlApplyFunc, applyViews, applyCtl, valuesOf, updNode, updList,
      consume, setSt, nodeValueRaw, pyOr, Value.truthy, Graph.node,
      Graph.size, mkGraph, stInit, defaultNode, tfNode, Except.map, g8, st08,
      funcBoom, viewsToApplies, st8a, st8b])

/-- C8 (counterexample): with one text field holding "10" and an apply
function that raises, the generated execute script run with `apply=True`
leaves the persisted record at the non-terminal status "running" with no
output — the FAILED record with a captured traceback that the claim
promises is never written. -/
theorem c8_no_failed_record_counterexample :
    executeScript g8 [0] funcBoom true (Option.some rec8) st08 =
      (Option.some ⟨"running", [ViewOut.field 0 (Value.str "10")],
        Option.none⟩, true)
    ∧ (executeScript g8 [0] funcBoom true (Option.some rec8) st08).1 ≠
        Option.some ⟨"failed", [ViewOut.field 0 (Value.str "10")],
          Option.none⟩ := by
  constructor
  all_goals
    simp [executeScript, ctlApplyFunc, listCtl, applyViews, applyCtl,
      valuesOf, viewsAll, viewCtl, applyScan, updNode, updList, consume,
      setSt, nodeValueRaw, pyOr, optTruthy, Value.truthy, Graph.node,
      Graph.size, mkGraph, stInit, defaultNode, tfNode, List.range,
      List.range.loop, Except.map, g8, st08, rec8, funcBoom, priorViews,
      viewsToApplies]

end Dstack
